import Mathlib

/-!
Verification development for a small route-search program.

The program keeps an undirected graph as a dictionary mapping a node to its
list of neighbors, loads it from two-token edge records (inserting both
directions of every edge), and offers five search algorithms over it:
breadth-first (`bfs`), depth-first (`dfs`), iterative deepening (`iddfs`),
greedy best-first (`best_first_search`) and an A*-like search (`a_star`).
A timing wrapper (`measure_time`) runs one search and prints the elapsed
time.  This file embeds those functions and proves the stated properties.

Modelling conventions:
* A Python dict is an association list; lookup takes the first matching key
  (dict keys are unique, so this agrees with dict semantics).
* The `while` loops of `bfs`, `dfs`, `best_first_search` and `a_star` are
  embedded with an explicit fuel argument; the fuel `degSum g + 2` used by
  the wrappers strictly exceeds the number of loop iterations any run can
  perform (proved below: each iteration either shrinks the frontier or marks
  a previously unvisited node, whose adjacency list then leaves the count),
  so the `getD` defaults in the wrappers are never taken.
* `heapq` maintains a binary min-heap of tuples compared lexicographically.
  That order is total, so two entries tie only when they are literally equal
  and popping any minimal entry is observationally the same; the heap is
  modelled as a list with push = append and pop = remove-leftmost-minimum.
* The heuristic `((lat1-lat2)**2 + (lon1-lon2)**2) ** 0.5` is modelled by
  the exact squared distance over ℚ (the square root is strictly monotone
  on nonnegative reals, so every comparison of two heuristic values has the
  same outcome; no claim settled here depends on the numeric values, only
  on error propagation, frontier bookkeeping and membership).
* `cities[city]` on a missing key raises `KeyError`, which propagates out of
  the search call; this is embedded with `Except α`, the error carrying the
  missing key.
-/

namespace SearchApp

section Uninformed

variable {α : Type} [DecidableEq α]

/-- `graph.get(current, [])`: the neighbor list of `x`, or `[]` when `x`
has no adjacency entry. -/
def getAdj (g : List (α × List α)) (x : α) : List α :=
  match g with
  | [] => []
  | (k, ns) :: rest => if k = x then ns else getAdj rest x

/-- Python dict subscript / `dict.get`: first entry with the given key. -/
def dictGet {β : Type} (m : List (α × β)) (x : α) : Option β :=
  match m with
  | [] => none
  | (k, v) :: rest => if k = x then some v else dictGet rest x

/-- Total length of all adjacency lists (used to bound loop iteration
counts). -/
def degSum (g : List (α × List α)) : Nat :=
  (g.map (fun e => e.2.length)).sum

/-- Sum of adjacency-list lengths over entries whose key is not yet
visited: the part of `degSum` a traversal can still push. -/
def unvisitedDegSum (g : List (α × List α)) (visited : List α) : Nat :=
  ((g.filter (fun e => decide (e.1 ∉ visited))).map (fun e => e.2.length)).sum

/-- `x` has an adjacency entry in `g`. -/
def isKeyB (g : List (α × List α)) (x : α) : Bool :=
  g.any (fun e => decide (e.1 = x))

/-- Every node mentioned in an adjacency list is itself a key (true of
every graph built by `load_adjacencies`, which inserts both endpoints). -/
def closedB (g : List (α × List α)) : Bool :=
  g.all (fun e => e.2.all (fun x => isKeyB g x))

/-- Every consecutive pair of the list is a neighbor relation in `g`. -/
def chainB (g : List (α × List α)) : List α → Bool
  | [] => true
  | [_] => true
  | a :: b :: rest => decide (b ∈ getAdj g a) && chainB g (b :: rest)

/-- `p` is a path from `s` to `t` in `g`: nonempty, starts at `s`, ends at
`t`, every consecutive pair an edge. -/
def isPathB (g : List (α × List α)) (s t : α) (p : List α) : Bool :=
  !p.isEmpty && decide (p.head? = some s) && decide (p.getLast? = some t)
    && chainB g p

/-- The `while queue` loop of `bfs`, with explicit fuel.  `none` means the
fuel ran out (shown below never to happen at the wrapper's fuel);
`some none` is the Python `return None`, `some (some p)` is `return path`. -/
def bfsAux (g : List (α × List α)) (goal : α) :
    Nat → List (α × List α) → List α → Option (Option (List α))
  | 0, _, _ => none
  | _ + 1, [], _ => some none
  | fuel + 1, (current, path) :: rest, visited =>
    if current = goal then some (some path)
    else if current ∈ visited then bfsAux g goal fuel rest visited
    else
      bfsAux g goal fuel
        (rest ++ (getAdj g current).map (fun neighbor => (neighbor, path ++ [neighbor])))
        (current :: visited)

/-- Breadth-first search.  The fuel `degSum g + 2` strictly exceeds the
iteration count of any run (theorem `bfsAux_top_isSome` below), so the
`getD` default is never taken; it only closes the fuel plumbing. -/
def bfs (g : List (α × List α)) (start goal : α) : Option (List α) :=
  (bfsAux g goal (degSum g + 2) [(start, [start])] []).getD none

/-- The `while stack` loop of `dfs`, with explicit fuel.  Python pushes the
neighbors in list order and pops the last one first; with the head of the
Lean list as the top of the stack that is `reverse` of the pushed block. -/
def dfsAux (g : List (α × List α)) (goal : α) :
    Nat → List (α × List α) → List α → Option (Option (List α))
  | 0, _, _ => none
  | _ + 1, [], _ => some none
  | fuel + 1, (current, path) :: rest, visited =>
    if current = goal then some (some path)
    else if current ∈ visited then dfsAux g goal fuel rest visited
    else
      dfsAux g goal fuel
        (((getAdj g current).map (fun neighbor => (neighbor, path ++ [neighbor]))).reverse ++ rest)
        (current :: visited)

/-- Depth-first search (same fuel discipline as `bfs`). -/
def dfs (g : List (α × List α)) (start goal : α) : Option (List α) :=
  (dfsAux g goal (degSum g + 2) [(start, [start])] []).getD none

/-- The `for neighbor in graph.get(node, [])` loop of `dls`: return the
first truthy recursive result (Python treats both `None` and `[]` as
falsy). -/
def dlsTry (f : α → Option (List α)) : List α → Option (List α)
  | [] => none
  | n :: rest =>
    match f n with
    | none => dlsTry f rest
    | some p => if p.isEmpty then dlsTry f rest else some p

/-- The depth-limited search nested inside `iddfs`.  Note the order of the
checks: the `depth == 0` cutoff precedes the goal test. -/
def dls (g : List (α × List α)) (goal : α) : Nat → α → List α → Option (List α)
  | 0, _, _ => none
  | depth + 1, node, path =>
    if node = goal then some path
    else
      dlsTry (fun neighbor =>
        if neighbor ∈ path then none
        else dls g goal depth neighbor (path ++ [neighbor])) (getAdj g node)

/-- The `for depth in range(max_depth)` loop of `iddfs`, over the remaining
depth values. -/
def iddfsGo (g : List (α × List α)) (goal start : α) : List Nat → Option (List α)
  | [] => none
  | d :: ds =>
    match dls g goal d start [start] with
    | none => iddfsGo g goal start ds
    | some p => if p.isEmpty then iddfsGo g goal start ds else some p

/-- Iterative deepening depth-first search with its default `max_depth`. -/
def iddfs (g : List (α × List α)) (start goal : α) (max_depth : Nat := 20) :
    Option (List α) :=
  iddfsGo g goal start (List.range max_depth)

/-- `graph.setdefault(a, []).append(b)`: append `b` to `a`'s adjacency
list, creating the entry (at the end, as dict insertion does) if absent. -/
def appendNbr (g : List (α × List α)) (a b : α) : List (α × List α) :=
  match g with
  | [] => [(a, [b])]
  | (k, ns) :: rest =>
    if k = a then (k, ns ++ [b]) :: rest else (k, ns) :: appendNbr rest a b

/-- `load_adjacencies` restricted to its well-formed two-token records
(malformed lines are skipped before reaching this step): each record
inserts both directions of the edge. -/
def load_adjacencies (records : List (α × α)) : List (α × List α) :=
  records.foldl (fun g r => appendNbr (appendNbr g r.1 r.2) r.2 r.1) []

end Uninformed

section Timing

/-- The observable world of `measure_time`: the stream of values
`time.perf_counter()` will return, and the lines printed so far (a printed
line is identified with the elapsed value it displays). -/
structure World where
  clock : List ℚ
  printed : List ℚ
  deriving DecidableEq

/-- `time.perf_counter()`: read the next timestamp of the stream. -/
def perf_counter (w : World) : ℚ × World :=
  (w.clock.headD 0, { w with clock := w.clock.tail })

/-- `print(f"Time taken: ...")`: append the displayed value to the log. -/
def printLine (q : ℚ) (w : World) : World :=
  { w with printed := w.printed ++ [q] }

/-- `measure_time(search_function, *args)`: timestamp, run the function
once, timestamp again, print the difference, and return the function's
result (only the result — the elapsed time is printed, not returned). -/
def measure_time {ρ : Type} (search_function : World → ρ × World) (w : World) :
    ρ × World :=
  let sw := perf_counter w
  let rw := search_function sw.2
  let ew := perf_counter rw.2
  let elapsed := ew.1 - sw.1
  (rw.1, printLine elapsed ew.2)

/-- Modelled from the spec: the TimingHarness contract
`run(algorithm, ...args) -> (result, elapsedDuration)` — unlike the code,
the spec's harness returns the elapsed duration to the caller as part of
the return value. -/
def measure_time_spec {ρ : Type} (search_function : World → ρ × World)
    (w : World) : (ρ × ℚ) × World :=
  let sw := perf_counter w
  let rw := search_function sw.2
  let ew := perf_counter rw.2
  ((rw.1, ew.1 - sw.1), ew.2)

end Timing

section Heuristic

variable {α : Type} [LinearOrder α]

/-- The `heuristic` closure shared by `best_first_search` and `a_star`:
look `city` up first, then `goal` (a missing key raises, carried here by
`Except`), and combine the coordinates.  The code takes the square root of
the sum of squares; the model keeps the exact squared value, an
order-isomorphic quantity (see the file comment). -/
def heuristicVal (cities : List (α × ℚ × ℚ)) (goal city : α) : Except α ℚ :=
  match dictGet cities city with
  | none => .error city
  | some c1 =>
    match dictGet cities goal with
    | none => .error goal
    | some c2 => .ok ((c1.1 - c2.1) ^ 2 + (c1.2 - c2.2) ^ 2)

/-- Python list comparison: lexicographic, a strict prefix is smaller. -/
def listLt : List α → List α → Bool
  | [], [] => false
  | [], _ :: _ => true
  | _ :: _, [] => false
  | x :: xs, y :: ys => if x < y then true else if y < x then false else listLt xs ys

/-- Python comparison of the `(priority, city, path)` tuples that
`best_first_search` pushes on the heap. -/
def entryLt3 (e f : ℚ × α × List α) : Bool :=
  if e.1 < f.1 then true else if f.1 < e.1 then false
  else if e.2.1 < f.2.1 then true else if f.2.1 < e.2.1 then false
  else listLt e.2.2 f.2.2

/-- Python comparison of the `(priority, city, path, cost)` tuples that
`a_star` pushes on the heap. -/
def entryLt4 (e f : ℚ × α × List α × ℚ) : Bool :=
  if e.1 < f.1 then true else if f.1 < e.1 then false
  else if e.2.1 < f.2.1 then true else if f.2.1 < e.2.1 then false
  else if listLt e.2.2.1 f.2.2.1 then true else if listLt f.2.2.1 e.2.2.1 then false
  else decide (e.2.2.2 < f.2.2.2)

end Heuristic

section PopMin

variable {β : Type}

/-- `heapq.heappop` on a heap whose order is total: remove and return the
leftmost minimal element (ties are literally equal tuples, so which one is
popped is unobservable). -/
def popMinBy (lt : β → β → Bool) : List β → Option (β × List β)
  | [] => none
  | x :: xs =>
    match popMinBy lt xs with
    | none => some (x, [])
    | some (m, rest) => if lt m x then some (m, x :: rest) else some (x, xs)

end PopMin

section HeuristicSearch

variable {α : Type} [LinearOrder α]

/-- The neighbor-push loop of `best_first_search`: evaluate the heuristic
of each neighbor in order and build its heap entry; the first missing
coordinate aborts the whole call (the partially filled heap is local to the
aborted call, so discarding it is faithful). -/
def bestPush (cities : List (α × ℚ × ℚ)) (goal : α) (path : List α) :
    List α → Except α (List (ℚ × α × List α))
  | [] => .ok []
  | n :: rest =>
    match heuristicVal cities goal n with
    | .error e => .error e
    | .ok h =>
      match bestPush cities goal path rest with
      | .error e => .error e
      | .ok es => .ok ((h, n, path ++ [n]) :: es)

/-- The `while pq` loop of `best_first_search`, with explicit fuel. -/
def bestAux (g : List (α × List α)) (cities : List (α × ℚ × ℚ)) (goal : α) :
    Nat → List (ℚ × α × List α) → List α → Option (Except α (Option (List α)))
  | 0, _, _ => none
  | fuel + 1, pq, visited =>
    match popMinBy entryLt3 pq with
    | none => some (.ok none)
    | some ((_, current, path), rest) =>
      if current = goal then some (.ok (some path))
      else if current ∈ visited then bestAux g cities goal fuel rest visited
      else
        match bestPush cities goal path (getAdj g current) with
        | .error e => some (.error e)
        | .ok es => bestAux g cities goal fuel (rest ++ es) (current :: visited)

/-- Greedy best-first search.  The initial heap entry already evaluates the
heuristic of `start`.  Fuel as in `bfs`; the `getD` default is never
taken. -/
def best_first_search (g : List (α × List α)) (cities : List (α × ℚ × ℚ))
    (start goal : α) : Except α (Option (List α)) :=
  match heuristicVal cities goal start with
  | .error e => .error e
  | .ok h =>
    (bestAux g cities goal (degSum g + 2) [(h, start, [start])] []).getD (.ok none)

/-- Python dict assignment `g_score[k] = v`: update in place, or append the
new key. -/
def setKey (m : List (α × ℚ)) (k : α) (v : ℚ) : List (α × ℚ) :=
  match m with
  | [] => [(k, v)]
  | (k1, v1) :: rest =>
    if k1 = k then (k, v) :: rest else (k1, v1) :: setKey rest k v

/-- The neighbor-relaxation loop of `a_star`: for each neighbor in order,
`new_cost = cost + heuristic(neighbor)`; push only when it improves any
recorded `g_score`, updating `g_score` as the loop goes. -/
def astarPush (cities : List (α × ℚ × ℚ)) (goal : α) (path : List α) (cost : ℚ) :
    List α → List (α × ℚ) → Except α (List (α × ℚ) × List (ℚ × α × List α × ℚ))
  | [], gs => .ok (gs, [])
  | n :: rest, gs =>
    match heuristicVal cities goal n with
    | .error e => .error e
    | .ok h =>
      -- new_cost = cost + heuristic(neighbor); the pushed priority is
      -- new_cost + heuristic(neighbor) = (cost + h) + h
      match dictGet gs n with
      | some old =>
        if cost + h < old then
          match astarPush cities goal path cost rest (setKey gs n (cost + h)) with
          | .error e => .error e
          | .ok (gs2, es) => .ok (gs2, (cost + h + h, n, path ++ [n], cost + h) :: es)
        else astarPush cities goal path cost rest gs
      | none =>
        match astarPush cities goal path cost rest (setKey gs n (cost + h)) with
        | .error e => .error e
        | .ok (gs2, es) => .ok (gs2, (cost + h + h, n, path ++ [n], cost + h) :: es)

/-- The `while open_set` loop of `a_star`, with explicit fuel. -/
def astarAux (g : List (α × List α)) (cities : List (α × ℚ × ℚ)) (goal : α) :
    Nat → List (ℚ × α × List α × ℚ) → List (α × ℚ) → List α →
    Option (Except α (Option (List α)))
  | 0, _, _, _ => none
  | fuel + 1, open_set, g_score, visited =>
    match popMinBy entryLt4 open_set with
    | none => some (.ok none)
    | some ((_, current, path, cost), rest) =>
      if current = goal then some (.ok (some path))
      else if current ∈ visited then astarAux g cities goal fuel rest g_score visited
      else
        match astarPush cities goal path cost (getAdj g current) g_score with
        | .error e => some (.error e)
        | .ok (gs2, es) => astarAux g cities goal fuel (rest ++ es) gs2 (current :: visited)

/-- A*-like search: `open_set = [(0, start, [start], 0)]`,
`g_score = {start: 0}`.  Fuel as in `bfs`; the `getD` default is never
taken. -/
def a_star (g : List (α × List α)) (cities : List (α × ℚ × ℚ))
    (start goal : α) : Except α (Option (List α)) :=
  (astarAux g cities goal (degSum g + 2) [(0, start, [start], 0)] [(start, 0)] []).getD
    (.ok none)

end HeuristicSearch

end SearchApp

/-! Proof-side predicates used by the invariant arguments below (these are
specification devices, not part of the program). -/

namespace SearchApp

section SpecPredicates

variable {α : Type} [DecidableEq α]

/-- Invariant of one frontier entry `(c, p)` of a traversal started at `s`:
`p` is a nonempty chain from `s` ending at `c`, all of whose nodes except
the last are already visited, with no duplicates among them. -/
def EntryOK (g : List (α × List α)) (s : α) (visited : List α)
    (e : α × List α) : Prop :=
  e.2 ≠ [] ∧ e.2.head? = some s ∧ e.2.getLast? = some e.1 ∧
    chainB g e.2 = true ∧ (∀ x ∈ e.2.dropLast, x ∈ visited) ∧ e.2.dropLast.Nodup

/-- `r` continues a chain from `c` to `t` in `g` (`r` lists the nodes after
`c`, so `r.length` is the number of remaining edges). -/
def chainTo (g : List (α × List α)) (c t : α) (r : List α) : Prop :=
  chainB g (c :: r) = true ∧ (c :: r).getLast? = some t

/-- FIFO layering of the breadth-first queue: path lengths are
nondecreasing from front to back, and never exceed the front length + 1. -/
def qlenSorted (q : List (α × List α)) : Prop :=
  List.Chain' (fun a b => a.2.length ≤ b.2.length) q ∧
    (∀ h0 ∈ q.head?, ∀ e ∈ q, e.2.length ≤ h0.2.length + 1)

/-- Every neighbor of a visited node is visited or still on the queue. -/
def VNE (g : List (α × List α)) (q : List (α × List α)) (visited : List α) : Prop :=
  ∀ v ∈ visited, ∀ nb ∈ getAdj g v, nb ∈ visited ∨ ∃ p, (nb, p) ∈ q

end SpecPredicates

end SearchApp

/-! ## Basic lemmas about the graph model -/

namespace SearchApp

section BasicLemmas

variable {α : Type} [DecidableEq α]

theorem isKeyB_false_iff {g : List (α × List α)} {x : α} :
    isKeyB g x = false ↔ ∀ e ∈ g, e.1 ≠ x := by
  simp [isKeyB]

theorem getAdj_of_not_key {g : List (α × List α)} {x : α}
    (h : isKeyB g x = false) : getAdj g x = [] := by
  induction g with
  | nil => rfl
  | cons e rest ih =>
    rw [isKeyB_false_iff] at h
    have h1 : e.1 ≠ x := h e (List.mem_cons_self e rest)
    have h2 : isKeyB rest x = false := by
      rw [isKeyB_false_iff]
      exact fun f hf => h f (List.mem_cons_of_mem e hf)
    cases e with
    | mk k ns => simpa [getAdj, h1] using ih h2

theorem closedB_spec {g : List (α × List α)} :
    closedB g = true ↔ ∀ e ∈ g, ∀ y ∈ e.2, isKeyB g y = true := by
  simp [closedB, List.all_eq_true]

theorem mem_getAdj_of_entries {big : List (α × List α)} {y x : α} :
    ∀ g : List (α × List α), (∀ e ∈ g, ∀ z ∈ e.2, isKeyB big z = true) →
      y ∈ getAdj g x → isKeyB big y = true := by
  intro g
  induction g with
  | nil => intro _ hy; simp [getAdj] at hy
  | cons e rest ih =>
    intro hall hy
    cases e with
    | mk k ns =>
      by_cases hk : k = x
      · simp [getAdj, hk] at hy
        exact hall (k, ns) (List.mem_cons_self _ _) y hy
      · simp [getAdj, hk] at hy
        exact ih (fun f hf => hall f (List.mem_cons_of_mem _ hf)) hy

theorem mem_getAdj_closed {g : List (α × List α)} {y x : α}
    (hc : closedB g = true) (hy : y ∈ getAdj g x) : isKeyB g y = true :=
  mem_getAdj_of_entries g (closedB_spec.mp hc) hy

theorem filterSum_mono {gamma : Type} (w : gamma → Nat) (P Q : gamma → Bool)
    (h : ∀ x, Q x = true → P x = true) :
    ∀ l : List gamma, ((l.filter Q).map w).sum ≤ ((l.filter P).map w).sum := by
  intro l
  induction l with
  | nil => simp
  | cons a l ih =>
    by_cases hq : Q a = true
    · rw [List.filter_cons_of_pos hq, List.filter_cons_of_pos (h a hq)]
      simpa using Nat.add_le_add_left ih (w a)
    · rw [List.filter_cons_of_neg (by simp [hq])]
      by_cases hp : P a = true
      · rw [List.filter_cons_of_pos hp]
        simp only [List.map_cons, List.sum_cons]
        exact ih.trans (Nat.le_add_left _ _)
      · rw [List.filter_cons_of_neg (by simp [hp])]
        exact ih

theorem uds_mono (g : List (α × List α)) (c : α) (v : List α) :
    unvisitedDegSum g (c :: v) ≤ unvisitedDegSum g v := by
  apply filterSum_mono
  intro x hx
  simp only [decide_eq_true_eq] at hx ⊢
  exact fun hv => hx (List.mem_cons_of_mem c hv)

theorem uds_le_degSum (g : List (α × List α)) (v : List α) :
    unvisitedDegSum g v ≤ degSum g := by
  have h := filterSum_mono (fun e : α × List α => e.2.length) (fun _ => true)
    (fun e => decide (e.1 ∉ v)) (fun x _ => rfl) g
  simpa [unvisitedDegSum, degSum, List.filter_true] using h

theorem uds_drop (g : List (α × List α)) {c : α} {v : List α} (hc : c ∉ v) :
    (getAdj g c).length + unvisitedDegSum g (c :: v) ≤ unvisitedDegSum g v := by
  induction g with
  | nil => simp [getAdj, unvisitedDegSum]
  | cons e rest ih =>
    cases e with
    | mk k ns =>
      by_cases hk : k = c
      · have hdropped : List.filter (fun e : α × List α => decide (e.1 ∉ (c :: v)))
            ((k, ns) :: rest) = List.filter (fun e => decide (e.1 ∉ (c :: v))) rest :=
          List.filter_cons_of_neg (by simp [hk])
        have hkept : List.filter (fun e : α × List α => decide (e.1 ∉ v))
            ((k, ns) :: rest) = (k, ns) :: List.filter (fun e => decide (e.1 ∉ v)) rest :=
          List.filter_cons_of_pos (by simp [hk]; exact hc)
        have hm := uds_mono rest c v
        simp only [unvisitedDegSum] at hm ⊢
        rw [hdropped, hkept, getAdj, if_pos hk]
        simp only [List.map_cons, List.sum_cons]
        omega
      · rw [getAdj, if_neg hk]
        by_cases h1 : k ∈ v
        · have hd1 : List.filter (fun e : α × List α => decide (e.1 ∉ (c :: v)))
              ((k, ns) :: rest) = List.filter (fun e => decide (e.1 ∉ (c :: v))) rest :=
            List.filter_cons_of_neg (by simp [List.mem_cons_of_mem c h1])
          have hd2 : List.filter (fun e : α × List α => decide (e.1 ∉ v))
              ((k, ns) :: rest) = List.filter (fun e => decide (e.1 ∉ v)) rest :=
            List.filter_cons_of_neg (by simp [h1])
          simp only [unvisitedDegSum] at ih ⊢
          rw [hd1, hd2]
          exact ih
        · have hk1 : k ∉ c :: v := by simp [hk, h1]
          have hd1 : List.filter (fun e : α × List α => decide (e.1 ∉ (c :: v)))
              ((k, ns) :: rest) = (k, ns) :: List.filter (fun e => decide (e.1 ∉ (c :: v))) rest :=
            List.filter_cons_of_pos (by simpa using hk1)
          have hd2 : List.filter (fun e : α × List α => decide (e.1 ∉ v))
              ((k, ns) :: rest) = (k, ns) :: List.filter (fun e => decide (e.1 ∉ v)) rest :=
            List.filter_cons_of_pos (by simpa using h1)
          simp only [unvisitedDegSum] at ih ⊢
          rw [hd1, hd2]
          simp only [List.map_cons, List.sum_cons]
          omega

end BasicLemmas

end SearchApp

/-! ## Heap-pop lemmas -/

namespace SearchApp

section PopMinLemmas

variable {β : Type}

theorem popMinBy_eq_none_iff {lt : β → β → Bool} {l : List β} :
    popMinBy lt l = none ↔ l = [] := by
  cases l with
  | nil => simp [popMinBy]
  | cons x xs =>
    simp only [popMinBy]
    constructor
    · intro h
      cases hxs : popMinBy lt xs with
      | none => rw [hxs] at h; simp at h
      | some mr =>
        rw [hxs] at h
        cases mr with
        | mk m rest =>
          by_cases hlt : lt m x = true <;> simp [hlt] at h
    · intro h; simp at h

theorem popMinBy_mem {lt : β → β → Bool} :
    ∀ {l : List β} {m : β} {rest : List β},
      popMinBy lt l = some (m, rest) → m ∈ l := by
  intro l
  induction l with
  | nil => intro m rest h; simp [popMinBy] at h
  | cons x xs ih =>
    intro m rest h
    simp only [popMinBy] at h
    cases hxs : popMinBy lt xs with
    | none =>
      rw [hxs] at h
      simp at h
      exact h.1 ▸ List.mem_cons_self x xs
    | some mr =>
      rw [hxs] at h
      cases mr with
      | mk m1 rest1 =>
        by_cases hlt : lt m1 x = true
        · simp [hlt] at h
          exact List.mem_cons_of_mem x (h.1 ▸ ih hxs)
        · simp [hlt] at h
          exact h.1 ▸ List.mem_cons_self x xs

theorem popMinBy_rest_subset {lt : β → β → Bool} :
    ∀ {l : List β} {m : β} {rest : List β},
      popMinBy lt l = some (m, rest) → ∀ y ∈ rest, y ∈ l := by
  intro l
  induction l with
  | nil => intro m rest h; simp [popMinBy] at h
  | cons x xs ih =>
    intro m rest h y hy
    simp only [popMinBy] at h
    cases hxs : popMinBy lt xs with
    | none =>
      rw [hxs] at h
      simp at h
      rw [h.2] at hy
      simp at hy
    | some mr =>
      rw [hxs] at h
      cases mr with
      | mk m1 rest1 =>
        by_cases hlt : lt m1 x = true
        · simp [hlt] at h
          rw [← h.2] at hy
          rcases List.mem_cons.mp hy with h1 | h1
          · exact h1 ▸ List.mem_cons_self x xs
          · exact List.mem_cons_of_mem x (ih hxs y h1)
        · simp [hlt] at h
          exact List.mem_cons_of_mem x (h.2 ▸ hy)

theorem popMinBy_length {lt : β → β → Bool} :
    ∀ {l : List β} {m : β} {rest : List β},
      popMinBy lt l = some (m, rest) → rest.length + 1 = l.length := by
  intro l
  induction l with
  | nil => intro m rest h; simp [popMinBy] at h
  | cons x xs ih =>
    intro m rest h
    simp only [popMinBy] at h
    cases hxs : popMinBy lt xs with
    | none =>
      rw [hxs] at h
      simp at h
      rw [h.2]
      have hnil : xs = [] := popMinBy_eq_none_iff.mp hxs
      simp [hnil]
    | some mr =>
      rw [hxs] at h
      cases mr with
      | mk m1 rest1 =>
        by_cases hlt : lt m1 x = true
        · simp [hlt] at h
          rw [← h.2]
          have := ih hxs
          simp [List.length_cons]
          omega
        · simp [hlt] at h
          rw [← h.2]
          simp

end PopMinLemmas

end SearchApp

/-! ## Termination: the wrappers' fuel always suffices -/

namespace SearchApp

section TerminationUninformed

variable {α : Type} [DecidableEq α]

theorem bfsAux_isSome (g : List (α × List α)) (goal : α) :
    ∀ (fuel : Nat) (q : List (α × List α)) (v : List α),
      q.length + unvisitedDegSum g v < fuel →
      (bfsAux g goal fuel q v).isSome = true := by
  intro fuel
  induction fuel with
  | zero => intro q v h; exact absurd h (Nat.not_lt_zero _)
  | succ n ih =>
    intro q v h
    match q with
    | [] => simp [bfsAux]
    | (c, p) :: rest =>
      simp only [bfsAux]
      by_cases h1 : c = goal
      · simp [h1]
      · rw [if_neg h1]
        by_cases h2 : c ∈ v
        · rw [if_pos h2]
          apply ih
          simp only [List.length_cons] at h
          omega
        · rw [if_neg h2]
          apply ih
          have hdrop := uds_drop g h2
          simp only [List.length_append, List.length_map, List.length_cons] at h ⊢
          omega

theorem dfsAux_isSome (g : List (α × List α)) (goal : α) :
    ∀ (fuel : Nat) (q : List (α × List α)) (v : List α),
      q.length + unvisitedDegSum g v < fuel →
      (dfsAux g goal fuel q v).isSome = true := by
  intro fuel
  induction fuel with
  | zero => intro q v h; exact absurd h (Nat.not_lt_zero _)
  | succ n ih =>
    intro q v h
    match q with
    | [] => simp [dfsAux]
    | (c, p) :: rest =>
      simp only [dfsAux]
      by_cases h1 : c = goal
      · simp [h1]
      · rw [if_neg h1]
        by_cases h2 : c ∈ v
        · rw [if_pos h2]
          apply ih
          simp only [List.length_cons] at h
          omega
        · rw [if_neg h2]
          apply ih
          have hdrop := uds_drop g h2
          simp only [List.length_append, List.length_reverse, List.length_map,
            List.length_cons] at h ⊢
          omega

theorem bfsAux_top_isSome (g : List (α × List α)) (s goal : α) :
    (bfsAux g goal (degSum g + 2) [(s, [s])] []).isSome = true := by
  apply bfsAux_isSome
  have := uds_le_degSum g ([] : List α)
  simp only [List.length_cons, List.length_nil]
  omega

theorem dfsAux_top_isSome (g : List (α × List α)) (s goal : α) :
    (dfsAux g goal (degSum g + 2) [(s, [s])] []).isSome = true := by
  apply dfsAux_isSome
  have := uds_le_degSum g ([] : List α)
  simp only [List.length_cons, List.length_nil]
  omega

theorem bfs_eq_of_aux {g : List (α × List α)} {s goal : α} {r : Option (List α)}
    (h : bfsAux g goal (degSum g + 2) [(s, [s])] [] = some r) :
    bfs g s goal = r := by
  simp [bfs, h]

theorem dfs_eq_of_aux {g : List (α × List α)} {s goal : α} {r : Option (List α)}
    (h : dfsAux g goal (degSum g + 2) [(s, [s])] [] = some r) :
    dfs g s goal = r := by
  simp [dfs, h]

theorem bfs_aux_exists (g : List (α × List α)) (s goal : α) :
    ∃ r, bfsAux g goal (degSum g + 2) [(s, [s])] [] = some r :=
  Option.isSome_iff_exists.mp (bfsAux_top_isSome g s goal)

theorem dfs_aux_exists (g : List (α × List α)) (s goal : α) :
    ∃ r, dfsAux g goal (degSum g + 2) [(s, [s])] [] = some r :=
  Option.isSome_iff_exists.mp (dfsAux_top_isSome g s goal)

end TerminationUninformed

section TerminationHeuristic

variable {α : Type} [LinearOrder α]

theorem bestPush_length {cities : List (α × ℚ × ℚ)} {goal : α} {path : List α} :
    ∀ {l : List α} {es : List (ℚ × α × List α)},
      bestPush cities goal path l = .ok es → es.length = l.length := by
  intro l
  induction l with
  | nil => intro es h; simp only [bestPush] at h; cases h; rfl
  | cons n rest ih =>
    intro es h
    simp only [bestPush] at h
    cases hh : heuristicVal cities goal n with
    | error e => rw [hh] at h; cases h
    | ok hv =>
      rw [hh] at h
      cases hrest : bestPush cities goal path rest with
      | error e => rw [hrest] at h; cases h
      | ok es1 =>
        rw [hrest] at h
        cases h
        simp [ih hrest]

theorem astarPush_length {cities : List (α × ℚ × ℚ)} {goal : α} {path : List α}
    {cost : ℚ} :
    ∀ {l : List α} {gs gs2 : List (α × ℚ)} {es : List (ℚ × α × List α × ℚ)},
      astarPush cities goal path cost l gs = .ok (gs2, es) →
      es.length ≤ l.length := by
  intro l
  induction l with
  | nil =>
    intro gs gs2 es h
    simp only [astarPush] at h
    cases h
    simp
  | cons n rest ih =>
    intro gs gs2 es h
    simp only [astarPush] at h
    cases hh : heuristicVal cities goal n with
    | error e => rw [hh] at h; cases h
    | ok hv =>
      rw [hh] at h
      simp only at h
      cases hg : dictGet gs n with
      | some old =>
        rw [hg] at h
        simp only at h
        by_cases hlt : cost + hv < old
        · rw [if_pos hlt] at h
          cases hrec : astarPush cities goal path cost rest (setKey gs n (cost + hv)) with
          | error e => rw [hrec] at h; cases h
          | ok p =>
            cases p with
            | mk gs3 es3 =>
              rw [hrec] at h
              cases h
              have := ih hrec
              simp only [List.length_cons]
              omega
        · rw [if_neg hlt] at h
          have := ih h
          simp only [List.length_cons]
          omega
      | none =>
        rw [hg] at h
        simp only at h
        cases hrec : astarPush cities goal path cost rest (setKey gs n (cost + hv)) with
        | error e => rw [hrec] at h; cases h
        | ok p =>
          cases p with
          | mk gs3 es3 =>
            rw [hrec] at h
            cases h
            have := ih hrec
            simp only [List.length_cons]
            omega

theorem bestAux_isSome (g : List (α × List α)) (cities : List (α × ℚ × ℚ)) (goal : α) :
    ∀ (fuel : Nat) (pq : List (ℚ × α × List α)) (v : List α),
      pq.length + unvisitedDegSum g v < fuel →
      (bestAux g cities goal fuel pq v).isSome = true := by
  intro fuel
  induction fuel with
  | zero => intro pq v h; exact absurd h (Nat.not_lt_zero _)
  | succ n ih =>
    intro pq v h
    simp only [bestAux]
    cases hpop : popMinBy entryLt3 pq with
    | none => simp
    | some er =>
      obtain ⟨⟨pr, c, p⟩, rest⟩ := er
      have hlen := popMinBy_length hpop
      by_cases h1 : c = goal
      · simp [h1]
      · by_cases h2 : c ∈ v
        · simp [h1, h2]
          apply ih
          omega
        · cases hpush : bestPush cities goal p (getAdj g c) with
          | error e => simp [h1, h2, hpush]
          | ok es =>
            simp [h1, h2, hpush]
            apply ih
            have hplen := bestPush_length hpush
            have hdrop := uds_drop g h2
            simp only [List.length_append]
            omega

theorem astarAux_isSome (g : List (α × List α)) (cities : List (α × ℚ × ℚ)) (goal : α) :
    ∀ (fuel : Nat) (pq : List (ℚ × α × List α × ℚ)) (gs : List (α × ℚ)) (v : List α),
      pq.length + unvisitedDegSum g v < fuel →
      (astarAux g cities goal fuel pq gs v).isSome = true := by
  intro fuel
  induction fuel with
  | zero => intro pq gs v h; exact absurd h (Nat.not_lt_zero _)
  | succ n ih =>
    intro pq gs v h
    simp only [astarAux]
    cases hpop : popMinBy entryLt4 pq with
    | none => simp
    | some er =>
      obtain ⟨⟨pr, c, p, cost⟩, rest⟩ := er
      have hlen := popMinBy_length hpop
      by_cases h1 : c = goal
      · simp [h1]
      · by_cases h2 : c ∈ v
        · simp [h1, h2]
          apply ih
          omega
        · cases hpush : astarPush cities goal p cost (getAdj g c) gs with
          | error e => simp [h1, h2, hpush]
          | ok p2 =>
            obtain ⟨gs2, es⟩ := p2
            simp [h1, h2, hpush]
            apply ih
            have hplen := astarPush_length hpush
            have hdrop := uds_drop g h2
            simp only [List.length_append]
            omega

theorem bestAux_top_isSome (g : List (α × List α)) (cities : List (α × ℚ × ℚ))
    (goal : α) (e : ℚ × α × List α) :
    (bestAux g cities goal (degSum g + 2) [e] []).isSome = true := by
  apply bestAux_isSome
  have := uds_le_degSum g ([] : List α)
  simp only [List.length_cons, List.length_nil]
  omega

theorem astarAux_top_isSome (g : List (α × List α)) (cities : List (α × ℚ × ℚ))
    (goal : α) (e : ℚ × α × List α × ℚ) (gs : List (α × ℚ)) :
    (astarAux g cities goal (degSum g + 2) [e] gs []).isSome = true := by
  apply astarAux_isSome
  have := uds_le_degSum g ([] : List α)
  simp only [List.length_cons, List.length_nil]
  omega

theorem best_eq_of_aux {g : List (α × List α)} {cities : List (α × ℚ × ℚ)}
    {s goal : α} {h0 : ℚ} {r : Except α (Option (List α))}
    (hh : heuristicVal cities goal s = .ok h0)
    (h : bestAux g cities goal (degSum g + 2) [(h0, s, [s])] [] = some r) :
    best_first_search g cities s goal = r := by
  simp [best_first_search, hh, h]

theorem astar_eq_of_aux {g : List (α × List α)} {cities : List (α × ℚ × ℚ)}
    {s goal : α} {r : Except α (Option (List α))}
    (h : astarAux g cities goal (degSum g + 2) [(0, s, [s], 0)] [(s, 0)] [] = some r) :
    a_star g cities s goal = r := by
  simp [a_star, h]

theorem best_aux_exists (g : List (α × List α)) (cities : List (α × ℚ × ℚ))
    (goal : α) (e : ℚ × α × List α) :
    ∃ r, bestAux g cities goal (degSum g + 2) [e] [] = some r :=
  Option.isSome_iff_exists.mp (bestAux_top_isSome g cities goal e)

theorem astar_aux_exists (g : List (α × List α)) (cities : List (α × ℚ × ℚ))
    (goal : α) (e : ℚ × α × List α × ℚ) (gs : List (α × ℚ)) :
    ∃ r, astarAux g cities goal (degSum g + 2) [e] gs [] = some r :=
  Option.isSome_iff_exists.mp (astarAux_top_isSome g cities goal e gs)

end TerminationHeuristic

end SearchApp

/-! ## Path validity: every returned path is a duplicate-free chain from
start to goal -/

namespace SearchApp

section ChainLemmas

variable {α : Type} [DecidableEq α]

theorem chainB_cons_cons {g : List (α × List α)} {a b : α} {rest : List α} :
    chainB g (a :: b :: rest) = true ↔
      b ∈ getAdj g a ∧ chainB g (b :: rest) = true := by
  simp [chainB]

theorem eq_dropLast_concat_of_getLast? {p : List α} {c : α}
    (h : p.getLast? = some c) : p = p.dropLast ++ [c] := by
  have hne : p ≠ [] := by
    intro h0
    rw [h0] at h
    simp at h
  have h2 := List.dropLast_append_getLast hne
  have h3 : p.getLast hne = c := by
    rw [List.getLast?_eq_getLast p hne] at h
    exact Option.some_injective _ h
  rw [← h3]
  exact h2.symm

theorem head?_append_left {p : List α} (h : p ≠ []) (l : List α) :
    (p ++ l).head? = p.head? := by
  cases p with
  | nil => exact absurd rfl h
  | cons a q => simp

theorem chainB_concat {g : List (α × List α)} :
    ∀ {p : List α} {c nb : α}, chainB g p = true → p.getLast? = some c →
      nb ∈ getAdj g c → chainB g (p ++ [nb]) = true := by
  intro p
  induction p with
  | nil => intro c nb _ hl; simp at hl
  | cons a q ih =>
    intro c nb hc hl hnb
    cases q with
    | nil =>
      simp at hl
      subst hl
      simp [chainB, hnb]
    | cons b r =>
      rw [chainB_cons_cons] at hc
      have hl2 : (b :: r).getLast? = some c := by
        rw [List.getLast?_cons_cons] at hl
        exact hl
      have := ih hc.2 hl2 hnb
      simpa [chainB_cons_cons, hc.1] using this

theorem nodup_concat_of_not_mem {p : List α} {c : α} (hn : p.Nodup)
    (hc : c ∉ p) : (p ++ [c]).Nodup := by
  simp [List.nodup_append, hn, hc]

end ChainLemmas

section EntryLemmas

variable {α : Type} [DecidableEq α]

theorem EntryOK_mono {g : List (α × List α)} {s : α} {v1 v2 : List α}
    (hsub : ∀ x ∈ v1, x ∈ v2) {e : α × List α} (h : EntryOK g s v1 e) :
    EntryOK g s v2 e := by
  obtain ⟨h1, h2, h3, h4, h5, h6⟩ := h
  exact ⟨h1, h2, h3, h4, fun x hx => hsub x (h5 x hx), h6⟩

theorem EntryOK_push {g : List (α × List α)} {s : α} {visited : List α}
    {c : α} {p : List α} (h : EntryOK g s visited (c, p)) (hcv : c ∉ visited)
    {nb : α} (hnb : nb ∈ getAdj g c) :
    EntryOK g s (c :: visited) (nb, p ++ [nb]) := by
  obtain ⟨hne, hhd, hlast, hchain, hsub, hnd⟩ := h
  have hdecomp : p = p.dropLast ++ [c] := eq_dropLast_concat_of_getLast? hlast
  refine ⟨by simp, ?_, ?_, ?_, ?_, ?_⟩
  · rw [head?_append_left hne]
    exact hhd
  · simp
  · exact chainB_concat hchain hlast hnb
  · intro x hx
    rw [List.dropLast_concat] at hx
    rw [hdecomp] at hx
    rcases List.mem_append.mp hx with h1 | h1
    · exact List.mem_cons_of_mem c (hsub x h1)
    · simp at h1
      simp [h1]
  · rw [List.dropLast_concat, hdecomp]
    apply nodup_concat_of_not_mem hnd
    intro hcmem
    exact hcv (hsub c hcmem)

theorem EntryOK_return {g : List (α × List α)} {s t : α} {visited : List α}
    {p : List α} (h : EntryOK g s visited (t, p)) (ht : t ∉ visited) :
    isPathB g s t p = true ∧ p.Nodup := by
  obtain ⟨hne, hhd, hlast, hchain, hsub, hnd⟩ := h
  constructor
  · simp only [isPathB, Bool.and_eq_true, decide_eq_true_eq, Bool.not_eq_true']
    refine ⟨⟨⟨?_, hhd⟩, hlast⟩, hchain⟩
    cases p with
    | nil => exact absurd rfl hne
    | cons a q => simp
  · have hdecomp : p = p.dropLast ++ [t] := eq_dropLast_concat_of_getLast? hlast
    rw [hdecomp]
    apply nodup_concat_of_not_mem hnd
    intro htmem
    exact ht (hsub t htmem)

end EntryLemmas

section SoundUninformed

variable {α : Type} [DecidableEq α]

theorem bfsAux_sound {g : List (α × List α)} {s t : α} :
    ∀ (fuel : Nat) {q : List (α × List α)} {visited : List α} {p : List α},
      bfsAux g t fuel q visited = some (some p) →
      (∀ e ∈ q, EntryOK g s visited e) → t ∉ visited →
      isPathB g s t p = true ∧ p.Nodup := by
  intro fuel
  induction fuel with
  | zero => intro q visited p h _ _; simp [bfsAux] at h
  | succ n ih =>
    intro q visited p h hq ht
    match q with
    | [] => simp [bfsAux] at h
    | (c, pp) :: rest =>
      simp only [bfsAux] at h
      by_cases h1 : c = t
      · rw [if_pos h1] at h
        simp at h
        subst h
        have := hq (c, pp) (List.mem_cons_self _ _)
        rw [h1] at this
        exact EntryOK_return this ht
      · rw [if_neg h1] at h
        by_cases h2 : c ∈ visited
        · rw [if_pos h2] at h
          exact ih h (fun e he => hq e (List.mem_cons_of_mem _ he)) ht
        · rw [if_neg h2] at h
          apply ih h _ _
          · intro e he
            rcases List.mem_append.mp he with h3 | h3
            · exact EntryOK_mono (fun x hx => List.mem_cons_of_mem c hx)
                (hq e (List.mem_cons_of_mem _ h3))
            · rcases List.mem_map.mp h3 with ⟨nb, hnb, hnbe⟩
              rw [← hnbe]
              exact EntryOK_push (hq (c, pp) (List.mem_cons_self _ _)) h2 hnb
          · intro hmem
            rcases List.mem_cons.mp hmem with h3 | h3
            · exact h1 h3.symm
            · exact ht h3

theorem dfsAux_sound {g : List (α × List α)} {s t : α} :
    ∀ (fuel : Nat) {q : List (α × List α)} {visited : List α} {p : List α},
      dfsAux g t fuel q visited = some (some p) →
      (∀ e ∈ q, EntryOK g s visited e) → t ∉ visited →
      isPathB g s t p = true ∧ p.Nodup := by
  intro fuel
  induction fuel with
  | zero => intro q visited p h _ _; simp [dfsAux] at h
  | succ n ih =>
    intro q visited p h hq ht
    match q with
    | [] => simp [dfsAux] at h
    | (c, pp) :: rest =>
      simp only [dfsAux] at h
      by_cases h1 : c = t
      · rw [if_pos h1] at h
        simp at h
        subst h
        have := hq (c, pp) (List.mem_cons_self _ _)
        rw [h1] at this
        exact EntryOK_return this ht
      · rw [if_neg h1] at h
        by_cases h2 : c ∈ visited
        · rw [if_pos h2] at h
          exact ih h (fun e he => hq e (List.mem_cons_of_mem _ he)) ht
        · rw [if_neg h2] at h
          apply ih h _ _
          · intro e he
            rcases List.mem_append.mp he with h3 | h3
            · rw [List.mem_reverse] at h3
              rcases List.mem_map.mp h3 with ⟨nb, hnb, hnbe⟩
              rw [← hnbe]
              exact EntryOK_push (hq (c, pp) (List.mem_cons_self _ _)) h2 hnb
            · exact EntryOK_mono (fun x hx => List.mem_cons_of_mem c hx)
                (hq e (List.mem_cons_of_mem _ h3))
          · intro hmem
            rcases List.mem_cons.mp hmem with h3 | h3
            · exact h1 h3.symm
            · exact ht h3

theorem bfs_sound {g : List (α × List α)} {s t : α} {p : List α}
    (h : bfs g s t = some p) : isPathB g s t p = true ∧ p.Nodup := by
  obtain ⟨r, hr⟩ := bfs_aux_exists g s t
  have hb := bfs_eq_of_aux hr
  rw [hb] at h
  subst h
  apply bfsAux_sound (degSum g + 2) hr _ (by simp)
  intro e he
  simp at he
  subst he
  exact ⟨by simp, by simp, by simp, by simp [chainB], by simp, by simp⟩

theorem dfs_sound {g : List (α × List α)} {s t : α} {p : List α}
    (h : dfs g s t = some p) : isPathB g s t p = true ∧ p.Nodup := by
  obtain ⟨r, hr⟩ := dfs_aux_exists g s t
  have hb := dfs_eq_of_aux hr
  rw [hb] at h
  subst h
  apply dfsAux_sound (degSum g + 2) hr _ (by simp)
  intro e he
  simp at he
  subst he
  exact ⟨by simp, by simp, by simp, by simp [chainB], by simp, by simp⟩

end SoundUninformed

end SearchApp

namespace SearchApp

section SoundHeuristic

variable {α : Type} [LinearOrder α]

theorem bestPush_mem {cities : List (α × ℚ × ℚ)} {goal : α} {path : List α} :
    ∀ {l : List α} {es : List (ℚ × α × List α)},
      bestPush cities goal path l = .ok es →
      ∀ e ∈ es, ∃ nb ∈ l, e.2.1 = nb ∧ e.2.2 = path ++ [nb] := by
  intro l
  induction l with
  | nil =>
    intro es h e he
    simp only [bestPush] at h
    cases h
    simp at he
  | cons n rest ih =>
    intro es h e he
    simp only [bestPush] at h
    cases hh : heuristicVal cities goal n with
    | error e2 => rw [hh] at h; cases h
    | ok hv =>
      rw [hh] at h
      cases hrest : bestPush cities goal path rest with
      | error e2 => rw [hrest] at h; cases h
      | ok es1 =>
        rw [hrest] at h
        cases h
        rcases List.mem_cons.mp he with h1 | h1
        · exact ⟨n, List.mem_cons_self _ _, by rw [h1], by rw [h1]⟩
        · obtain ⟨nb, hnb, he1, he2⟩ := ih hrest e h1
          exact ⟨nb, List.mem_cons_of_mem _ hnb, he1, he2⟩

theorem astarPush_mem {cities : List (α × ℚ × ℚ)} {goal : α} {path : List α}
    {cost : ℚ} :
    ∀ {l : List α} {gs gs2 : List (α × ℚ)} {es : List (ℚ × α × List α × ℚ)},
      astarPush cities goal path cost l gs = .ok (gs2, es) →
      ∀ e ∈ es, ∃ nb ∈ l, e.2.1 = nb ∧ e.2.2.1 = path ++ [nb] := by
  intro l
  induction l with
  | nil =>
    intro gs gs2 es h e he
    simp only [astarPush] at h
    cases h
    simp at he
  | cons n rest ih =>
    intro gs gs2 es h e he
    simp only [astarPush] at h
    cases hh : heuristicVal cities goal n with
    | error e2 => rw [hh] at h; cases h
    | ok hv =>
      rw [hh] at h
      simp only at h
      cases hg : dictGet gs n with
      | some old =>
        rw [hg] at h
        simp only at h
        by_cases hlt : cost + hv < old
        · rw [if_pos hlt] at h
          cases hrec : astarPush cities goal path cost rest (setKey gs n (cost + hv)) with
          | error e2 => rw [hrec] at h; cases h
          | ok pr =>
            obtain ⟨gs3, es3⟩ := pr
            rw [hrec] at h
            cases h
            rcases List.mem_cons.mp he with h1 | h1
            · exact ⟨n, List.mem_cons_self _ _, by rw [h1], by rw [h1]⟩
            · obtain ⟨nb, hnb, he1, he2⟩ := ih hrec e h1
              exact ⟨nb, List.mem_cons_of_mem _ hnb, he1, he2⟩
        · rw [if_neg hlt] at h
          obtain ⟨nb, hnb, he1, he2⟩ := ih h e he
          exact ⟨nb, List.mem_cons_of_mem _ hnb, he1, he2⟩
      | none =>
        rw [hg] at h
        simp only at h
        cases hrec : astarPush cities goal path cost rest (setKey gs n (cost + hv)) with
        | error e2 => rw [hrec] at h; cases h
        | ok pr =>
          obtain ⟨gs3, es3⟩ := pr
          rw [hrec] at h
          cases h
          rcases List.mem_cons.mp he with h1 | h1
          · exact ⟨n, List.mem_cons_self _ _, by rw [h1], by rw [h1]⟩
          · obtain ⟨nb, hnb, he1, he2⟩ := ih hrec e h1
            exact ⟨nb, List.mem_cons_of_mem _ hnb, he1, he2⟩

theorem bestAux_sound {g : List (α × List α)} {cities : List (α × ℚ × ℚ)}
    {s t : α} :
    ∀ (fuel : Nat) {pq : List (ℚ × α × List α)} {visited : List α} {p : List α},
      bestAux g cities t fuel pq visited = some (.ok (some p)) →
      (∀ e ∈ pq, EntryOK g s visited (e.2.1, e.2.2)) → t ∉ visited →
      isPathB g s t p = true ∧ p.Nodup := by
  intro fuel
  induction fuel with
  | zero => intro pq visited p h _ _; simp [bestAux] at h
  | succ n ih =>
    intro pq visited p h hq ht
    simp only [bestAux] at h
    cases hpop : popMinBy entryLt3 pq with
    | none => rw [hpop] at h; simp at h
    | some er =>
      obtain ⟨⟨pr, c, pp⟩, rest⟩ := er
      rw [hpop] at h
      simp only at h
      by_cases h1 : c = t
      · rw [if_pos h1] at h
        simp at h
        subst h
        have hin := hq _ (popMinBy_mem hpop)
        rw [h1] at hin
        exact EntryOK_return hin ht
      · rw [if_neg h1] at h
        by_cases h2 : c ∈ visited
        · rw [if_pos h2] at h
          exact ih h (fun e he => hq e (popMinBy_rest_subset hpop e he)) ht
        · rw [if_neg h2] at h
          cases hpush : bestPush cities t pp (getAdj g c) with
          | error e2 => rw [hpush] at h; simp at h
          | ok es =>
            rw [hpush] at h
            simp only at h
            apply ih h _ _
            · intro e he
              rcases List.mem_append.mp he with h3 | h3
              · exact EntryOK_mono (fun x hx => List.mem_cons_of_mem c hx)
                  (hq e (popMinBy_rest_subset hpop e h3))
              · obtain ⟨nb, hnb, he1, he2⟩ := bestPush_mem hpush e h3
                rw [he1, he2]
                exact EntryOK_push (hq _ (popMinBy_mem hpop)) h2 hnb
            · intro hmem
              rcases List.mem_cons.mp hmem with h3 | h3
              · exact h1 h3.symm
              · exact ht h3

theorem astarAux_sound {g : List (α × List α)} {cities : List (α × ℚ × ℚ)}
    {s t : α} :
    ∀ (fuel : Nat) {pq : List (ℚ × α × List α × ℚ)} {gs : List (α × ℚ)}
      {visited : List α} {p : List α},
      astarAux g cities t fuel pq gs visited = some (.ok (some p)) →
      (∀ e ∈ pq, EntryOK g s visited (e.2.1, e.2.2.1)) → t ∉ visited →
      isPathB g s t p = true ∧ p.Nodup := by
  intro fuel
  induction fuel with
  | zero => intro pq gs visited p h _ _; simp [astarAux] at h
  | succ n ih =>
    intro pq gs visited p h hq ht
    simp only [astarAux] at h
    cases hpop : popMinBy entryLt4 pq with
    | none => rw [hpop] at h; simp at h
    | some er =>
      obtain ⟨⟨pr, c, pp, cost⟩, rest⟩ := er
      rw [hpop] at h
      simp only at h
      by_cases h1 : c = t
      · rw [if_pos h1] at h
        simp at h
        subst h
        have hin := hq _ (popMinBy_mem hpop)
        rw [h1] at hin
        exact EntryOK_return hin ht
      · rw [if_neg h1] at h
        by_cases h2 : c ∈ visited
        · rw [if_pos h2] at h
          exact ih h (fun e he => hq e (popMinBy_rest_subset hpop e he)) ht
        · rw [if_neg h2] at h
          cases hpush : astarPush cities t pp cost (getAdj g c) gs with
          | error e2 => rw [hpush] at h; simp at h
          | ok pr2 =>
            obtain ⟨gs2, es⟩ := pr2
            rw [hpush] at h
            simp only at h
            apply ih h _ _
            · intro e he
              rcases List.mem_append.mp he with h3 | h3
              · exact EntryOK_mono (fun x hx => List.mem_cons_of_mem c hx)
                  (hq e (popMinBy_rest_subset hpop e h3))
              · obtain ⟨nb, hnb, he1, he2⟩ := astarPush_mem hpush e h3
                rw [he1, he2]
                exact EntryOK_push (hq _ (popMinBy_mem hpop)) h2 hnb
            · intro hmem
              rcases List.mem_cons.mp hmem with h3 | h3
              · exact h1 h3.symm
              · exact ht h3

theorem best_sound {g : List (α × List α)} {cities : List (α × ℚ × ℚ)}
    {s t : α} {p : List α} (h : best_first_search g cities s t = .ok (some p)) :
    isPathB g s t p = true ∧ p.Nodup := by
  unfold best_first_search at h
  cases hh : heuristicVal cities t s with
  | error e => rw [hh] at h; cases h
  | ok h0 =>
    rw [hh] at h
    simp only at h
    obtain ⟨r, hr⟩ := best_aux_exists g cities t (h0, s, [s])
    rw [hr] at h
    simp at h
    rw [h] at hr
    apply bestAux_sound (degSum g + 2) hr _ (by simp)
    intro e he
    simp at he
    subst he
    exact ⟨by simp, by simp, by simp, by simp [chainB], by simp, by simp⟩

theorem astar_sound {g : List (α × List α)} {cities : List (α × ℚ × ℚ)}
    {s t : α} {p : List α} (h : a_star g cities s t = .ok (some p)) :
    isPathB g s t p = true ∧ p.Nodup := by
  unfold a_star at h
  obtain ⟨r, hr⟩ := astar_aux_exists g cities t (0, s, [s], 0) [(s, 0)]
  rw [hr] at h
  simp at h
  rw [h] at hr
  apply astarAux_sound (degSum g + 2) hr _ (by simp)
  intro e he
  simp at he
  subst he
  exact ⟨by simp, by simp, by simp, by simp [chainB], by simp, by simp⟩

end SoundHeuristic

section SoundIddfs

variable {α : Type} [DecidableEq α]

theorem dlsTry_eq_some {f : α → Option (List α)} :
    ∀ {l : List α} {p : List α}, dlsTry f l = some p →
      ∃ n ∈ l, f n = some p ∧ p ≠ [] := by
  intro l
  induction l with
  | nil => intro p h; simp [dlsTry] at h
  | cons n rest ih =>
    intro p h
    simp only [dlsTry] at h
    cases hf : f n with
    | none =>
      rw [hf] at h
      obtain ⟨n1, hn1, hf1, hp⟩ := ih h
      exact ⟨n1, List.mem_cons_of_mem _ hn1, hf1, hp⟩
    | some q =>
      rw [hf] at h
      by_cases hq : q.isEmpty
      · simp only [hq, if_true] at h
        obtain ⟨n1, hn1, hf1, hp⟩ := ih h
        exact ⟨n1, List.mem_cons_of_mem _ hn1, hf1, hp⟩
      · simp only [hq, if_false, Bool.false_eq_true] at h
        simp at h
        subst h
        refine ⟨n, List.mem_cons_self _ _, hf, ?_⟩
        intro h0
        rw [h0] at hq
        simp at hq

theorem dls_sound {g : List (α × List α)} {t : α} :
    ∀ (d : Nat) {node : α} {path p : List α},
      dls g t d node path = some p →
      path ≠ [] → path.getLast? = some node → chainB g path = true →
      (∃ ext, p = path ++ ext ∧ ext.length + 1 ≤ d) ∧ p.getLast? = some t ∧
        chainB g p = true ∧ (path.Nodup → p.Nodup) ∧ p.head? = path.head? := by
  intro d
  induction d with
  | zero => intro node path p h _ _ _; simp [dls] at h
  | succ n ih =>
    intro node path p h hne hlast hchain
    simp only [dls] at h
    by_cases h1 : node = t
    · rw [if_pos h1] at h
      simp at h
      subst h
      exact ⟨⟨[], by simp, by simp only [List.length_nil]; omega⟩,
        by rw [← h1]; exact hlast, hchain, fun hn => hn, rfl⟩
    · rw [if_neg h1] at h
      obtain ⟨nb, hnbmem, hf, hpne⟩ := dlsTry_eq_some h
      by_cases h2 : nb ∈ path
      · rw [if_pos h2] at hf; cases hf
      · rw [if_neg h2] at hf
        have hprem1 : (path ++ [nb] : List α) ≠ [] := by simp
        have hprem2 : (path ++ [nb]).getLast? = some nb := by simp
        have hprem3 : chainB g (path ++ [nb]) = true :=
          chainB_concat hchain hlast hnbmem
        obtain ⟨⟨ext1, hpe, hlen⟩, hplast, hpchain, hpnd, hphead⟩ :=
          ih hf hprem1 hprem2 hprem3
        refine ⟨⟨nb :: ext1, ?_, ?_⟩, hplast, hpchain, ?_, ?_⟩
        · rw [hpe]
          simp
        · simp only [List.length_cons]
          omega
        · intro hnd
          exact hpnd (nodup_concat_of_not_mem hnd h2)
        · rw [hphead, head?_append_left hne]

theorem iddfsGo_eq_some {g : List (α × List α)} {t s : α} :
    ∀ {ds : List Nat} {p : List α}, iddfsGo g t s ds = some p →
      ∃ d ∈ ds, dls g t d s [s] = some p := by
  intro ds
  induction ds with
  | nil => intro p h; simp [iddfsGo] at h
  | cons d rest ih =>
    intro p h
    simp only [iddfsGo] at h
    cases hd : dls g t d s [s] with
    | none =>
      rw [hd] at h
      obtain ⟨d1, hd1, h1⟩ := ih h
      exact ⟨d1, List.mem_cons_of_mem _ hd1, h1⟩
    | some q =>
      rw [hd] at h
      by_cases hq : q.isEmpty
      · simp only [hq, if_true] at h
        obtain ⟨d1, hd1, h1⟩ := ih h
        exact ⟨d1, List.mem_cons_of_mem _ hd1, h1⟩
      · simp only [hq, if_false, Bool.false_eq_true] at h
        simp at h
        subst h
        exact ⟨d, List.mem_cons_self _ _, hd⟩

theorem iddfs_sound {g : List (α × List α)} {s t : α} {maxd : Nat} {p : List α}
    (h : iddfs g s t maxd = some p) :
    isPathB g s t p = true ∧ p.Nodup ∧ p.length < maxd := by
  obtain ⟨d, hdmem, hd⟩ := iddfsGo_eq_some h
  have hdlt : d < maxd := List.mem_range.mp hdmem
  obtain ⟨⟨ext, hpe, hlen⟩, hplast, hpchain, hpnd, hphead⟩ :=
    dls_sound d hd (by simp) (by simp) (by simp [chainB])
  refine ⟨?_, hpnd (by simp), ?_⟩
  · simp only [isPathB, Bool.and_eq_true, decide_eq_true_eq, Bool.not_eq_true']
    refine ⟨⟨⟨?_, ?_⟩, hplast⟩, hpchain⟩
    · rw [hpe]
      simp
    · rw [hphead]
      simp
  · rw [hpe]
    simp only [List.length_append, List.length_cons, List.length_nil]
    omega

end SoundIddfs

end SearchApp

/-! ## Breadth-first minimality: FIFO layering and frontier witnesses -/

namespace SearchApp

section MinimalityHelpers

variable {α : Type} [DecidableEq α]

theorem mem_of_getLast?_eq {β : Type} :
    ∀ {l : List β} {a : β}, l.getLast? = some a → a ∈ l := by
  intro l
  induction l with
  | nil => intro a h; simp at h
  | cons x xs ih =>
    intro a h
    cases xs with
    | nil =>
      simp at h
      simp [h]
    | cons y ys =>
      rw [List.getLast?_cons_cons] at h
      exact List.mem_cons_of_mem _ (ih h)

theorem chain'_len_le_head :
    ∀ {q : List (α × List α)} {h0 : α × List α},
      List.Chain' (fun a b => a.2.length ≤ b.2.length) (h0 :: q) →
      ∀ e ∈ q, h0.2.length ≤ e.2.length := by
  intro q
  induction q with
  | nil => intro h0 _ e he; simp at he
  | cons h1 q2 ih =>
    intro h0 hc e he
    rw [List.chain'_cons] at hc
    rcases List.mem_cons.mp he with h | h
    · rw [h]; exact hc.1
    · exact hc.1.trans (ih hc.2 e h)

theorem qlenSorted_head_le {q : List (α × List α)} {c : α} {p : List α}
    (hs : qlenSorted ((c, p) :: q)) :
    ∀ e ∈ (c, p) :: q, p.length ≤ e.2.length := by
  intro e he
  rcases List.mem_cons.mp he with h | h
  · rw [h]
  · exact chain'_len_le_head hs.1 e h

theorem qlenSorted_band {q : List (α × List α)} {c : α} {p : List α}
    (hs : qlenSorted ((c, p) :: q)) :
    ∀ e ∈ (c, p) :: q, e.2.length ≤ p.length + 1 := by
  intro e he
  exact hs.2 (c, p) rfl e he

theorem qlenSorted_tail {h0 : α × List α} {rest : List (α × List α)}
    (hs : qlenSorted (h0 :: rest)) : qlenSorted rest := by
  obtain ⟨hc, hb⟩ := hs
  refine ⟨hc.tail, ?_⟩
  intro h1 hh1 e he
  cases rest with
  | nil => simp at he
  | cons h2 rest2 =>
    have hh1e : h2 = h1 := by simpa using hh1
    have h0le : h0.2.length ≤ h2.2.length := (List.chain'_cons.mp hc).1
    have hbe := hb h0 rfl e (List.mem_cons_of_mem _ he)
    rw [← hh1e]
    omega

theorem pushedChain {p : List α} :
    ∀ (ns : List α), List.Chain' (fun a b : α × List α => a.2.length ≤ b.2.length)
      (ns.map fun nb => (nb, p ++ [nb])) := by
  intro ns
  induction ns with
  | nil => simp
  | cons n ms ih =>
    cases ms with
    | nil => simp
    | cons m ms2 =>
      simp only [List.map_cons] at ih ⊢
      exact List.Chain'.cons (by simp) ih

theorem pushed_len {p : List α} {ns : List α} {e : α × List α}
    (he : e ∈ ns.map fun nb => (nb, p ++ [nb])) : e.2.length = p.length + 1 := by
  rcases List.mem_map.mp he with ⟨nb, _, hnb⟩
  rw [← hnb]
  simp

theorem qlenSorted_expand {c : α} {p : List α} {rest : List (α × List α)}
    {ns : List α} (hs : qlenSorted ((c, p) :: rest)) :
    qlenSorted (rest ++ ns.map fun nb => (nb, p ++ [nb])) := by
  have hband := qlenSorted_band hs
  constructor
  · rw [List.chain'_append]
    refine ⟨hs.1.tail, pushedChain ns, ?_⟩
    intro x hx y hy
    have hxm : x ∈ rest := mem_of_getLast?_eq hx
    have hym : y ∈ ns.map fun nb => (nb, p ++ [nb]) := List.mem_of_mem_head? hy
    have h1 := hband x (List.mem_cons_of_mem _ hxm)
    have h2 := pushed_len hym
    omega
  · intro h1 hh1 e he
    cases rest with
    | nil =>
      simp only [List.nil_append] at hh1 he
      have h1m := List.mem_of_mem_head? hh1
      have h1l := pushed_len h1m
      have hel := pushed_len he
      omega
    | cons h2 rest2 =>
      have hh1e : h2 = h1 := by simpa using hh1
      have h0le : p.length ≤ h2.2.length := (List.chain'_cons.mp hs.1).1
      rw [← hh1e]
      rcases List.mem_append.mp he with hm | hm
      · have := hband e (List.mem_cons_of_mem _ hm)
        omega
      · have := pushed_len hm
        omega

theorem chainTo_decompose {g : List (α × List α)} {c t : α} {r : List α}
    (h : chainTo g c t r) (hne : c ≠ t) :
    ∃ nb r2, r = nb :: r2 ∧ nb ∈ getAdj g c ∧ chainTo g nb t r2 := by
  obtain ⟨hchain, hlast⟩ := h
  cases r with
  | nil =>
    simp at hlast
    exact absurd hlast hne
  | cons nb r2 =>
    rw [chainB_cons_cons] at hchain
    rw [List.getLast?_cons_cons] at hlast
    exact ⟨nb, r2, rfl, hchain.1, hchain.2, hlast⟩

/-- Chain repair: a witness chain that starts inside the visited set can be
shortcut to an entry still on the queue, without lengthening the total.
Each step from a visited node either reaches an unvisited neighbor (whose
queue entry's path is, by the FIFO band, at most one longer than the front
path) or moves one edge closer to the goal through another visited node. -/
theorem witness_repair {g : List (α × List α)} {t : α} {q : List (α × List α)}
    {visited : List α} {L : Nat} (hvne : VNE g q visited) (ht : t ∉ visited)
    (hband : ∀ e ∈ q, e.2.length ≤ L + 1) :
    ∀ (r : List α) (c : α), c ∈ visited → chainTo g c t r →
      ∃ nb pb rb, (nb, pb) ∈ q ∧ nb ∉ visited ∧ chainTo g nb t rb ∧
        pb.length + rb.length ≤ L + r.length := by
  intro r
  induction r with
  | nil =>
    intro c hc hct
    exfalso
    obtain ⟨_, hlast⟩ := hct
    simp at hlast
    rw [hlast] at hc
    exact ht hc
  | cons nb0 r2 ih =>
    intro c hc hct
    have hcne : c ≠ t := by
      intro h0
      rw [h0] at hc
      exact ht hc
    obtain ⟨nb, rr, hre, hadj, hct2⟩ := chainTo_decompose hct hcne
    cases hre
    by_cases hv : nb0 ∈ visited
    · obtain ⟨nb1, pb, rb, hmem, hnvis, hcht, hlen⟩ := ih nb0 hv hct2
      exact ⟨nb1, pb, rb, hmem, hnvis, hcht, by simp only [List.length_cons]; omega⟩
    · rcases hvne c hc nb0 hadj with h0 | ⟨pb, hpb⟩
      · exact absurd h0 hv
      · refine ⟨nb0, pb, r2, hpb, hv, hct2, ?_⟩
        have := hband (nb0, pb) hpb
        simp only [List.length_cons]
        simp only at this
        omega

end MinimalityHelpers

end SearchApp

namespace SearchApp

section Minimality

variable {α : Type} [DecidableEq α]

/-- Main induction for breadth-first minimality and completeness: as long
as some queue entry, extended by a residual chain to the goal, has total
node count at most `N`, the run returns a path of at most `N` nodes. -/
theorem bfsAux_min {g : List (α × List α)} {t : α} :
    ∀ (fuel : Nat) {q : List (α × List α)} {visited : List α}
      {res : Option (List α)} {N : Nat},
      bfsAux g t fuel q visited = some res →
      qlenSorted q → t ∉ visited → VNE g q visited →
      (∃ cw pw rw1, (cw, pw) ∈ q ∧ chainTo g cw t rw1 ∧
        pw.length + rw1.length ≤ N) →
      ∃ p, res = some p ∧ p.length ≤ N := by
  intro fuel
  induction fuel with
  | zero => intro q visited res N h _ _ _ _; simp [bfsAux] at h
  | succ n ih =>
    intro q visited res N h hsort ht hvne hwit
    obtain ⟨cw, pw, rw1, hwmem, hwct, hwlen⟩ := hwit
    match q with
    | [] => simp at hwmem
    | (c0, p0) :: rest =>
      simp only [bfsAux] at h
      by_cases h1 : c0 = t
      · rw [if_pos h1] at h
        simp at h
        refine ⟨p0, h.symm, ?_⟩
        have hmin := qlenSorted_head_le hsort (cw, pw) hwmem
        simp only at hmin
        omega
      · rw [if_neg h1] at h
        by_cases h2 : c0 ∈ visited
        · rw [if_pos h2] at h
          have hvne2 : VNE g rest visited := by
            intro v hv nb hnb
            rcases hvne v hv nb hnb with hx | ⟨pe, hpe⟩
            · exact Or.inl hx
            · rcases List.mem_cons.mp hpe with heq | hm
              · left
                have : nb = c0 := congrArg Prod.fst heq
                rw [this]
                exact h2
              · exact Or.inr ⟨pe, hm⟩
          apply ih h (qlenSorted_tail hsort) ht hvne2
          rcases List.mem_cons.mp hwmem with heq | hm
          · have hcw : cw = c0 := congrArg Prod.fst heq
            have hpw : pw = p0 := congrArg Prod.snd heq
            have hband2 : ∀ e ∈ rest, e.2.length ≤ p0.length + 1 := fun e he =>
              qlenSorted_band hsort e (List.mem_cons_of_mem _ he)
            have hcv : cw ∈ visited := by rw [hcw]; exact h2
            obtain ⟨nb, pb, rb, hmem, _, hcht, hlen⟩ :=
              witness_repair hvne2 ht hband2 rw1 cw hcv hwct
            refine ⟨nb, pb, rb, hmem, hcht, ?_⟩
            rw [hpw] at hwlen
            omega
          · exact ⟨cw, pw, rw1, hm, hwct, hwlen⟩
        · rw [if_neg h2] at h
          have ht2 : t ∉ c0 :: visited := by
            intro hmem
            rcases List.mem_cons.mp hmem with h3 | h3
            · exact h1 h3.symm
            · exact ht h3
          have hvne2 : VNE g
              (rest ++ (getAdj g c0).map fun nb => (nb, p0 ++ [nb]))
              (c0 :: visited) := by
            intro v hv nb hnb
            rcases List.mem_cons.mp hv with hvc | hvv
            · right
              refine ⟨p0 ++ [nb], List.mem_append_right _ ?_⟩
              rw [← hvc]
              exact List.mem_map_of_mem _ hnb
            · rcases hvne v hvv nb hnb with hx | ⟨pe, hpe⟩
              · exact Or.inl (List.mem_cons_of_mem _ hx)
              · rcases List.mem_cons.mp hpe with heq | hm
                · left
                  have : nb = c0 := congrArg Prod.fst heq
                  rw [this]
                  exact List.mem_cons_self _ _
                · exact Or.inr ⟨pe, List.mem_append_left _ hm⟩
          apply ih h (qlenSorted_expand hsort) ht2 hvne2
          rcases List.mem_cons.mp hwmem with heq | hm
          · have hcw : cw = c0 := congrArg Prod.fst heq
            have hpw : pw = p0 := congrArg Prod.snd heq
            have hcwne : cw ≠ t := by rw [hcw]; exact h1
            obtain ⟨nb, r2, hr, hnb, hct2⟩ := chainTo_decompose hwct hcwne
            refine ⟨nb, p0 ++ [nb], r2, ?_, hct2, ?_⟩
            · apply List.mem_append_right
              rw [← hcw]
              exact List.mem_map_of_mem _ hnb
            · rw [hpw, hr] at hwlen
              simp only [List.length_append, List.length_cons,
                List.length_nil] at hwlen ⊢
              omega
          · exact ⟨cw, pw, rw1, List.mem_append_left _ hm, hwct, hwlen⟩

theorem isPathB_decomp {g : List (α × List α)} {s t : α} {q : List α}
    (h : isPathB g s t q = true) : ∃ tail, q = s :: tail ∧ chainTo g s t tail := by
  simp only [isPathB, Bool.and_eq_true, Bool.not_eq_true', decide_eq_true_eq] at h
  obtain ⟨⟨⟨hne, hh⟩, hl⟩, hc⟩ := h
  cases q with
  | nil => simp at hne
  | cons a tail =>
    simp at hh
    subst hh
    exact ⟨tail, rfl, hc, hl⟩

/-- Breadth-first search is complete and returns a path with the fewest
nodes (hence the fewest edges) among all paths from `s` to `t`. -/
theorem bfs_shortest {g : List (α × List α)} {s t : α} {q0 : List α}
    (hq0 : isPathB g s t q0 = true) :
    ∃ p, bfs g s t = some p ∧ isPathB g s t p = true ∧ p.Nodup ∧
      ∀ q2, isPathB g s t q2 = true → p.length ≤ q2.length := by
  obtain ⟨r, hr⟩ := bfs_aux_exists g s t
  have hinit : qlenSorted [((s : α), [s])] := by
    constructor
    · simp
    · intro h0 hh0 e he
      simp at hh0 he
      rw [he, ← hh0]
      simp
  have hvne0 : VNE g [((s : α), [s])] [] := by
    intro v hv
    simp at hv
  have hmin : ∀ q2, isPathB g s t q2 = true →
      ∃ p, r = some p ∧ p.length ≤ q2.length := by
    intro q2 hq2
    obtain ⟨tail, hq2e, hct⟩ := isPathB_decomp hq2
    apply bfsAux_min (degSum g + 2) hr hinit (by simp) hvne0
    refine ⟨s, [s], tail, by simp, hct, ?_⟩
    rw [hq2e]
    simp only [List.length_cons, List.length_nil]
    omega
  obtain ⟨p, hp, hple⟩ := hmin q0 hq0
  subst hp
  have hbfs : bfs g s t = some p := bfs_eq_of_aux hr
  obtain ⟨hpath, hnd⟩ := bfs_sound hbfs
  refine ⟨p, hbfs, hpath, hnd, ?_⟩
  intro q2 hq2
  obtain ⟨p2, hp2, hple2⟩ := hmin q2 hq2
  have hpp : p2 = p := by
    have := hp2.symm
    simpa using this
  rw [← hpp]
  exact hple2

end Minimality

end SearchApp

/-! ## Absent endpoints: empty expansion and unreachable goals -/

namespace SearchApp

section AbsentUninformed

variable {α : Type} [DecidableEq α]

theorem bfsAux_start_no_adj {g : List (α × List α)} {s t : α} (h1 : s ≠ t)
    (h2 : getAdj g s = []) (n : Nat) :
    bfsAux g t (n + 2) [(s, [s])] [] = some none := by
  show bfsAux g t (n + 1 + 1) [(s, [s])] [] = some none
  simp [bfsAux, h1, h2]

theorem dfsAux_start_no_adj {g : List (α × List α)} {s t : α} (h1 : s ≠ t)
    (h2 : getAdj g s = []) (n : Nat) :
    dfsAux g t (n + 2) [(s, [s])] [] = some none := by
  show dfsAux g t (n + 1 + 1) [(s, [s])] [] = some none
  simp [dfsAux, h1, h2]

theorem bfsAux_unreachable {g : List (α × List α)} {t : α}
    (hedge : ∀ x c, x ∈ getAdj g c → x ≠ t) :
    ∀ (fuel : Nat) {q : List (α × List α)} {v : List α} {r : Option (List α)},
      bfsAux g t fuel q v = some r → (∀ e ∈ q, e.1 ≠ t) → r = none := by
  intro fuel
  induction fuel with
  | zero => intro q v r h _; simp [bfsAux] at h
  | succ n ih =>
    intro q v r h hq
    match q with
    | [] =>
      simp [bfsAux] at h
      exact h.symm
    | (c0, p0) :: rest =>
      simp only [bfsAux] at h
      have h1 : c0 ≠ t := hq (c0, p0) (List.mem_cons_self _ _)
      rw [if_neg h1] at h
      by_cases h2 : c0 ∈ v
      · rw [if_pos h2] at h
        exact ih h (fun e he => hq e (List.mem_cons_of_mem _ he))
      · rw [if_neg h2] at h
        apply ih h
        intro e he
        rcases List.mem_append.mp he with h3 | h3
        · exact hq e (List.mem_cons_of_mem _ h3)
        · rcases List.mem_map.mp h3 with ⟨nb, hnb, hne⟩
          rw [← hne]
          exact hedge nb c0 hnb

theorem dfsAux_unreachable {g : List (α × List α)} {t : α}
    (hedge : ∀ x c, x ∈ getAdj g c → x ≠ t) :
    ∀ (fuel : Nat) {q : List (α × List α)} {v : List α} {r : Option (List α)},
      dfsAux g t fuel q v = some r → (∀ e ∈ q, e.1 ≠ t) → r = none := by
  intro fuel
  induction fuel with
  | zero => intro q v r h _; simp [dfsAux] at h
  | succ n ih =>
    intro q v r h hq
    match q with
    | [] =>
      simp [dfsAux] at h
      exact h.symm
    | (c0, p0) :: rest =>
      simp only [dfsAux] at h
      have h1 : c0 ≠ t := hq (c0, p0) (List.mem_cons_self _ _)
      rw [if_neg h1] at h
      by_cases h2 : c0 ∈ v
      · rw [if_pos h2] at h
        exact ih h (fun e he => hq e (List.mem_cons_of_mem _ he))
      · rw [if_neg h2] at h
        apply ih h
        intro e he
        rcases List.mem_append.mp he with h3 | h3
        · rw [List.mem_reverse] at h3
          rcases List.mem_map.mp h3 with ⟨nb, hnb, hne⟩
          rw [← hne]
          exact hedge nb c0 hnb
        · exact hq e (List.mem_cons_of_mem _ h3)

theorem dlsTry_none {f : α → Option (List α)} :
    ∀ {l : List α}, (∀ n ∈ l, f n = none) → dlsTry f l = none := by
  intro l
  induction l with
  | nil => intro _; rfl
  | cons n rest ih =>
    intro h
    simp only [dlsTry]
    rw [h n (List.mem_cons_self _ _)]
    exact ih (fun m hm => h m (List.mem_cons_of_mem _ hm))

theorem dls_unreachable {g : List (α × List α)} {t : α}
    (hedge : ∀ x c, x ∈ getAdj g c → x ≠ t) :
    ∀ (d : Nat) {node : α} {path : List α}, node ≠ t →
      dls g t d node path = none := by
  intro d
  induction d with
  | zero => intro node path _; rfl
  | succ n ih =>
    intro node path hne
    simp only [dls]
    rw [if_neg hne]
    apply dlsTry_none
    intro nb hnb
    by_cases h2 : nb ∈ path
    · rw [if_pos h2]
    · rw [if_neg h2]
      exact ih (hedge nb node hnb)

theorem iddfsGo_none {g : List (α × List α)} {t s : α}
    (h : ∀ d, dls g t d s [s] = none) :
    ∀ ds : List Nat, iddfsGo g t s ds = none := by
  intro ds
  induction ds with
  | nil => rfl
  | cons d rest ih =>
    simp only [iddfsGo]
    rw [h d]
    exact ih

end AbsentUninformed

section AbsentHeuristic

variable {α : Type} [LinearOrder α]

theorem heuristicVal_ok {cities : List (α × ℚ × ℚ)} {goal city : α}
    (h1 : dictGet cities city ≠ none) (h2 : dictGet cities goal ≠ none) :
    ∃ v, heuristicVal cities goal city = .ok v := by
  unfold heuristicVal
  cases hc : dictGet cities city with
  | none => exact absurd hc h1
  | some c1 =>
    cases hg : dictGet cities goal with
    | none => exact absurd hg h2
    | some c2 => exact ⟨_, rfl⟩

theorem bestPush_ok {cities : List (α × ℚ × ℚ)} {goal : α} {path : List α}
    (h2 : dictGet cities goal ≠ none) :
    ∀ {l : List α}, (∀ n ∈ l, dictGet cities n ≠ none) →
      ∃ es, bestPush cities goal path l = .ok es := by
  intro l
  induction l with
  | nil => intro _; exact ⟨[], rfl⟩
  | cons n rest ih =>
    intro h
    obtain ⟨v, hv⟩ := heuristicVal_ok (h n (List.mem_cons_self _ _)) h2
    obtain ⟨es, hes⟩ := ih (fun m hm => h m (List.mem_cons_of_mem _ hm))
    refine ⟨(v, n, path ++ [n]) :: es, ?_⟩
    simp only [bestPush]
    rw [hv, hes]

theorem astarPush_ok {cities : List (α × ℚ × ℚ)} {goal : α} {path : List α}
    {cost : ℚ} (h2 : dictGet cities goal ≠ none) :
    ∀ {l : List α} (gs : List (α × ℚ)), (∀ n ∈ l, dictGet cities n ≠ none) →
      ∃ gs2 es, astarPush cities goal path cost l gs = .ok (gs2, es) := by
  intro l
  induction l with
  | nil => intro gs _; exact ⟨gs, [], rfl⟩
  | cons n rest ih =>
    intro gs h
    obtain ⟨v, hv⟩ := heuristicVal_ok (h n (List.mem_cons_self _ _)) h2
    have hrest : ∀ m ∈ rest, dictGet cities m ≠ none :=
      fun m hm => h m (List.mem_cons_of_mem _ hm)
    simp only [astarPush]
    rw [hv]
    simp only
    cases hg : dictGet gs n with
    | some old =>
      dsimp only
      by_cases hlt : cost + v < old
      · rw [if_pos hlt]
        obtain ⟨gs2, es, hrec⟩ := ih (setKey gs n (cost + v)) hrest
        rw [hrec]
        exact ⟨gs2, _, rfl⟩
      · rw [if_neg hlt]
        exact ih gs hrest
    | none =>
      dsimp only
      obtain ⟨gs2, es, hrec⟩ := ih (setKey gs n (cost + v)) hrest
      rw [hrec]
      exact ⟨gs2, _, rfl⟩

theorem bestAux_unreachable {g : List (α × List α)} {cities : List (α × ℚ × ℚ)}
    {t : α} (hedge : ∀ x c, x ∈ getAdj g c → x ≠ t)
    (hcoords : ∀ c x, x ∈ getAdj g c → dictGet cities x ≠ none)
    (hgoal : dictGet cities t ≠ none) :
    ∀ (fuel : Nat) {pq : List (ℚ × α × List α)} {v : List α}
      {r : Except α (Option (List α))},
      bestAux g cities t fuel pq v = some r → (∀ e ∈ pq, e.2.1 ≠ t) →
      r = .ok none := by
  intro fuel
  induction fuel with
  | zero => intro pq v r h _; simp [bestAux] at h
  | succ n ih =>
    intro pq v r h hq
    simp only [bestAux] at h
    cases hpop : popMinBy entryLt3 pq with
    | none =>
      rw [hpop] at h
      simp at h
      exact h.symm
    | some er =>
      obtain ⟨⟨pr, c, pp⟩, rest⟩ := er
      rw [hpop] at h
      simp only at h
      have h1 : c ≠ t := hq _ (popMinBy_mem hpop)
      rw [if_neg h1] at h
      by_cases h2 : c ∈ v
      · rw [if_pos h2] at h
        exact ih h (fun e he => hq e (popMinBy_rest_subset hpop e he))
      · rw [if_neg h2] at h
        obtain ⟨es, hes⟩ := bestPush_ok hgoal (fun m hm => hcoords c m hm)
        rw [hes] at h
        simp only at h
        apply ih h
        intro e he
        rcases List.mem_append.mp he with h3 | h3
        · exact hq e (popMinBy_rest_subset hpop e h3)
        · obtain ⟨nb, hnb, he1, _⟩ := bestPush_mem hes e h3
          rw [he1]
          exact hedge nb c hnb

theorem astarAux_unreachable {g : List (α × List α)} {cities : List (α × ℚ × ℚ)}
    {t : α} (hedge : ∀ x c, x ∈ getAdj g c → x ≠ t)
    (hcoords : ∀ c x, x ∈ getAdj g c → dictGet cities x ≠ none)
    (hgoal : dictGet cities t ≠ none) :
    ∀ (fuel : Nat) {pq : List (ℚ × α × List α × ℚ)} {gs : List (α × ℚ)}
      {v : List α} {r : Except α (Option (List α))},
      astarAux g cities t fuel pq gs v = some r → (∀ e ∈ pq, e.2.1 ≠ t) →
      r = .ok none := by
  intro fuel
  induction fuel with
  | zero => intro pq gs v r h _; simp [astarAux] at h
  | succ n ih =>
    intro pq gs v r h hq
    simp only [astarAux] at h
    cases hpop : popMinBy entryLt4 pq with
    | none =>
      rw [hpop] at h
      simp at h
      exact h.symm
    | some er =>
      obtain ⟨⟨pr, c, pp, cost⟩, rest⟩ := er
      rw [hpop] at h
      simp only at h
      have h1 : c ≠ t := hq _ (popMinBy_mem hpop)
      rw [if_neg h1] at h
      by_cases h2 : c ∈ v
      · rw [if_pos h2] at h
        exact ih h (fun e he => hq e (popMinBy_rest_subset hpop e he))
      · rw [if_neg h2] at h
        obtain ⟨gs2, es, hes⟩ := astarPush_ok hgoal gs (fun m hm => hcoords c m hm)
        rw [hes] at h
        simp only at h
        apply ih h
        intro e he
        rcases List.mem_append.mp he with h3 | h3
        · exact hq e (popMinBy_rest_subset hpop e h3)
        · obtain ⟨nb, hnb, he1, _⟩ := astarPush_mem hes e h3
          rw [he1]
          exact hedge nb c hnb

theorem bestAux_start_no_adj {g : List (α × List α)} {cities : List (α × ℚ × ℚ)}
    {s t : α} (h1 : s ≠ t) (h2 : getAdj g s = []) (n : Nat) (h0 : ℚ) :
    bestAux g cities t (n + 2) [(h0, s, [s])] [] = some (.ok none) := by
  show bestAux g cities t (n + 1 + 1) [(h0, s, [s])] [] = some (.ok none)
  simp [bestAux, popMinBy, h1, h2, bestPush]

theorem astarAux_start_no_adj {g : List (α × List α)} {cities : List (α × ℚ × ℚ)}
    {s t : α} {gs : List (α × ℚ)} (h1 : s ≠ t) (h2 : getAdj g s = []) (n : Nat) :
    astarAux g cities t (n + 2) [(0, s, [s], 0)] gs [] = some (.ok none) := by
  show astarAux g cities t (n + 1 + 1) [(0, s, [s], 0)] gs [] = some (.ok none)
  simp [astarAux, popMinBy, h1, h2, astarPush]

end AbsentHeuristic

end SearchApp

/-! ## Missing coordinates: every error names a node absent from the map -/

namespace SearchApp

section ErrorLemmas

variable {α : Type} [LinearOrder α]

theorem heuristicVal_error {cities : List (α × ℚ × ℚ)} {goal city e : α}
    (h : heuristicVal cities goal city = .error e) : dictGet cities e = none := by
  unfold heuristicVal at h
  cases hc : dictGet cities city with
  | none =>
    rw [hc] at h
    cases h
    exact hc
  | some c1 =>
    rw [hc] at h
    simp only at h
    cases hg : dictGet cities goal with
    | none =>
      rw [hg] at h
      cases h
      exact hg
    | some c2 =>
      rw [hg] at h
      cases h

theorem bestPush_error {cities : List (α × ℚ × ℚ)} {goal : α} {path : List α} :
    ∀ {l : List α} {e : α}, bestPush cities goal path l = .error e →
      dictGet cities e = none := by
  intro l
  induction l with
  | nil => intro e h; simp [bestPush] at h
  | cons n rest ih =>
    intro e h
    simp only [bestPush] at h
    cases hh : heuristicVal cities goal n with
    | error e2 =>
      rw [hh] at h
      cases h
      exact heuristicVal_error hh
    | ok hv =>
      rw [hh] at h
      cases hrest : bestPush cities goal path rest with
      | error e2 =>
        rw [hrest] at h
        cases h
        exact ih hrest
      | ok es1 => rw [hrest] at h; cases h

theorem astarPush_error {cities : List (α × ℚ × ℚ)} {goal : α} {path : List α}
    {cost : ℚ} :
    ∀ {l : List α} {gs : List (α × ℚ)} {e : α},
      astarPush cities goal path cost l gs = .error e →
      dictGet cities e = none := by
  intro l
  induction l with
  | nil => intro gs e h; simp [astarPush] at h
  | cons n rest ih =>
    intro gs e h
    simp only [astarPush] at h
    cases hh : heuristicVal cities goal n with
    | error e2 =>
      rw [hh] at h
      cases h
      exact heuristicVal_error hh
    | ok hv =>
      rw [hh] at h
      simp only at h
      cases hg : dictGet gs n with
      | some old =>
        rw [hg] at h
        simp only at h
        by_cases hlt : cost + hv < old
        · rw [if_pos hlt] at h
          cases hrec : astarPush cities goal path cost rest (setKey gs n (cost + hv)) with
          | error e2 =>
            rw [hrec] at h
            cases h
            exact ih hrec
          | ok pr =>
            obtain ⟨gs3, es3⟩ := pr
            rw [hrec] at h
            cases h
        · rw [if_neg hlt] at h
          exact ih h
      | none =>
        rw [hg] at h
        simp only at h
        cases hrec : astarPush cities goal path cost rest (setKey gs n (cost + hv)) with
        | error e2 =>
          rw [hrec] at h
          cases h
          exact ih hrec
        | ok pr =>
          obtain ⟨gs3, es3⟩ := pr
          rw [hrec] at h
          cases h

theorem bestAux_error {g : List (α × List α)} {cities : List (α × ℚ × ℚ)}
    {t : α} :
    ∀ (fuel : Nat) {pq : List (ℚ × α × List α)} {v : List α} {e : α},
      bestAux g cities t fuel pq v = some (.error e) →
      dictGet cities e = none := by
  intro fuel
  induction fuel with
  | zero => intro pq v e h; simp [bestAux] at h
  | succ n ih =>
    intro pq v e h
    simp only [bestAux] at h
    cases hpop : popMinBy entryLt3 pq with
    | none => rw [hpop] at h; simp at h
    | some er =>
      obtain ⟨⟨pr, c, pp⟩, rest⟩ := er
      rw [hpop] at h
      simp only at h
      by_cases h1 : c = t
      · rw [if_pos h1] at h; simp at h
      · rw [if_neg h1] at h
        by_cases h2 : c ∈ v
        · rw [if_pos h2] at h
          exact ih h
        · rw [if_neg h2] at h
          cases hpush : bestPush cities t pp (getAdj g c) with
          | error e2 =>
            rw [hpush] at h
            simp at h
            rw [← h]
            exact bestPush_error hpush
          | ok es =>
            rw [hpush] at h
            simp only at h
            exact ih h

theorem astarAux_error {g : List (α × List α)} {cities : List (α × ℚ × ℚ)}
    {t : α} :
    ∀ (fuel : Nat) {pq : List (ℚ × α × List α × ℚ)} {gs : List (α × ℚ)}
      {v : List α} {e : α},
      astarAux g cities t fuel pq gs v = some (.error e) →
      dictGet cities e = none := by
  intro fuel
  induction fuel with
  | zero => intro pq gs v e h; simp [astarAux] at h
  | succ n ih =>
    intro pq gs v e h
    simp only [astarAux] at h
    cases hpop : popMinBy entryLt4 pq with
    | none => rw [hpop] at h; simp at h
    | some er =>
      obtain ⟨⟨pr, c, pp, cost⟩, rest⟩ := er
      rw [hpop] at h
      simp only at h
      by_cases h1 : c = t
      · rw [if_pos h1] at h; simp at h
      · rw [if_neg h1] at h
        by_cases h2 : c ∈ v
        · rw [if_pos h2] at h
          exact ih h
        · rw [if_neg h2] at h
          cases hpush : astarPush cities t pp cost (getAdj g c) gs with
          | error e2 =>
            rw [hpush] at h
            simp at h
            rw [← h]
            exact astarPush_error hpush
          | ok pr2 =>
            obtain ⟨gs2, es⟩ := pr2
            rw [hpush] at h
            simp only at h
            exact ih h

theorem best_first_error {g : List (α × List α)} {cities : List (α × ℚ × ℚ)}
    {s t e : α} (h : best_first_search g cities s t = .error e) :
    dictGet cities e = none := by
  unfold best_first_search at h
  cases hh : heuristicVal cities t s with
  | error e2 =>
    rw [hh] at h
    cases h
    exact heuristicVal_error hh
  | ok h0 =>
    rw [hh] at h
    simp only at h
    obtain ⟨r, hr⟩ := best_aux_exists g cities t (h0, s, [s])
    rw [hr] at h
    simp at h
    rw [h] at hr
    exact bestAux_error (degSum g + 2) hr

theorem a_star_error {g : List (α × List α)} {cities : List (α × ℚ × ℚ)}
    {s t e : α} (h : a_star g cities s t = .error e) :
    dictGet cities e = none := by
  unfold a_star at h
  obtain ⟨r, hr⟩ := astar_aux_exists g cities t (0, s, [s], 0) [(s, 0)]
  rw [hr] at h
  simp at h
  rw [h] at hr
  exact astarAux_error (degSum g + 2) hr

theorem best_first_missing_start {g : List (α × List α)}
    {cities : List (α × ℚ × ℚ)} {s t : α} (h : dictGet cities s = none) :
    best_first_search g cities s t = .error s := by
  unfold best_first_search
  unfold heuristicVal
  rw [h]

theorem best_first_missing_goal {g : List (α × List α)}
    {cities : List (α × ℚ × ℚ)} {s t : α} {cs : ℚ × ℚ}
    (hs : dictGet cities s = some cs) (h : dictGet cities t = none) :
    best_first_search g cities s t = .error t := by
  unfold best_first_search
  unfold heuristicVal
  rw [hs, h]

theorem a_star_first_neighbor_missing {g : List (α × List α)}
    {cities : List (α × ℚ × ℚ)} {s t nb : α} {restAdj : List α}
    (h1 : s ≠ t) (hadj : getAdj g s = nb :: restAdj)
    (hnb : dictGet cities nb = none) : a_star g cities s t = .error nb := by
  unfold a_star
  have : astarAux g cities t (degSum g + 1 + 1) [(0, s, [s], 0)] [(s, 0)] [] =
      some (.error nb) := by
    simp only [astarAux, popMinBy]
    rw [if_neg h1]
    simp only [List.mem_nil_iff, if_false]
    rw [hadj]
    simp only [astarPush]
    unfold heuristicVal
    rw [hnb]
  rw [show degSum g + 2 = degSum g + 1 + 1 from rfl, this]
  rfl

end ErrorLemmas

end SearchApp

/-! ## start = goal: every variant returns the one-node path immediately -/

namespace SearchApp

section StartGoal

variable {α : Type} [DecidableEq α]

theorem bfs_self (g : List (α × List α)) (n : α) : bfs g n n = some [n] := by
  apply bfs_eq_of_aux
  show bfsAux g n (degSum g + 1 + 1) [(n, [n])] [] = some (some [n])
  simp [bfsAux]

theorem dfs_self (g : List (α × List α)) (n : α) : dfs g n n = some [n] := by
  apply dfs_eq_of_aux
  show dfsAux g n (degSum g + 1 + 1) [(n, [n])] [] = some (some [n])
  simp [dfsAux]

theorem iddfs_self (g : List (α × List α)) (n : α) (maxd : Nat)
    (hd : 2 ≤ maxd) : iddfs g n n maxd = some [n] := by
  unfold iddfs
  obtain ⟨k, hk⟩ : ∃ k, maxd = k + 2 := ⟨maxd - 2, by omega⟩
  rw [hk]
  have hr : List.range (k + 2) =
      0 :: 1 :: ((List.range k).map Nat.succ).map Nat.succ := by
    rw [List.range_succ_eq_map, List.range_succ_eq_map]
    simp
  rw [hr]
  simp [iddfsGo, dls]

end StartGoal

section StartGoalHeuristic

variable {α : Type} [LinearOrder α]

theorem best_first_self (g : List (α × List α)) (cities : List (α × ℚ × ℚ))
    (n : α) (h : dictGet cities n ≠ none) :
    best_first_search g cities n n = .ok (some [n]) := by
  obtain ⟨v, hv⟩ := heuristicVal_ok h h
  apply best_eq_of_aux hv
  show bestAux g cities n (degSum g + 1 + 1) [(v, n, [n])] [] =
    some (.ok (some [n]))
  simp [bestAux, popMinBy]

theorem a_star_self (g : List (α × List α)) (cities : List (α × ℚ × ℚ))
    (n : α) : a_star g cities n n = .ok (some [n]) := by
  apply astar_eq_of_aux
  show astarAux g cities n (degSum g + 1 + 1) [(0, n, [n], 0)] [(n, 0)] [] =
    some (.ok (some [n]))
  simp [astarAux, popMinBy]

end StartGoalHeuristic

end SearchApp

/-! ## The loader produces a symmetric multigraph -/

namespace SearchApp

section Loader

variable {α : Type} [DecidableEq α]

theorem getAdj_appendNbr {a b x : α} :
    ∀ g : List (α × List α),
      getAdj (appendNbr g a b) x =
        if x = a then getAdj g a ++ [b] else getAdj g x := by
  intro g
  induction g with
  | nil =>
    by_cases h : x = a
    · subst h
      simp [appendNbr, getAdj]
    · have hax : ¬(a = x) := fun hh => h hh.symm
      simp [appendNbr, getAdj, h, hax]
  | cons e rest ih =>
    obtain ⟨k, ns⟩ := e
    simp only [appendNbr]
    by_cases hk : k = a
    · rw [if_pos hk]
      subst hk
      by_cases hx : x = k
      · subst hx
        simp [getAdj]
      · have hax : ¬(k = x) := fun hh => hx hh.symm
        simp [getAdj, hx, hax]
    · rw [if_neg hk]
      by_cases hx : k = x
      · have hxa : ¬(x = a) := fun hh => hk (hx.trans hh)
        simp [getAdj, hx, hxa]
      · simp [getAdj, hx, hk, ih]

theorem mem_appendNbr_iff {g : List (α × List α)} {a b x y : α} :
    y ∈ getAdj (appendNbr g a b) x ↔ y ∈ getAdj g x ∨ (x = a ∧ y = b) := by
  rw [getAdj_appendNbr]
  by_cases h : x = a
  · subst h
    simp
  · simp [h]

theorem addEdge_sym {g : List (α × List α)} {a0 b0 : α}
    (hs : ∀ a b : α, b ∈ getAdj g a → a ∈ getAdj g b) :
    ∀ a b : α, b ∈ getAdj (appendNbr (appendNbr g a0 b0) b0 a0) a →
      a ∈ getAdj (appendNbr (appendNbr g a0 b0) b0 a0) b := by
  intro a b hb
  rw [mem_appendNbr_iff, mem_appendNbr_iff] at hb ⊢
  rcases hb with hb1 | hb1
  · rcases hb1 with hb2 | hb2
    · exact Or.inl (Or.inl (hs a b hb2))
    · exact Or.inr ⟨hb2.2, hb2.1⟩
  · exact Or.inl (Or.inr ⟨hb1.2, hb1.1⟩)

theorem load_adjacencies_foldl_sym :
    ∀ (records : List (α × α)) (g : List (α × List α)),
      (∀ a b : α, b ∈ getAdj g a → a ∈ getAdj g b) →
      ∀ a b : α,
        b ∈ getAdj (records.foldl
          (fun g2 r => appendNbr (appendNbr g2 r.1 r.2) r.2 r.1) g) a →
        a ∈ getAdj (records.foldl
          (fun g2 r => appendNbr (appendNbr g2 r.1 r.2) r.2 r.1) g) b := by
  intro records
  induction records with
  | nil => intro g hs a b hb; exact hs a b hb
  | cons r rs ih =>
    intro g hs a b hb
    exact ih _ (addEdge_sym hs) a b hb

theorem load_adjacencies_sym (records : List (α × α)) :
    ∀ a b : α, b ∈ getAdj (load_adjacencies records) a →
      a ∈ getAdj (load_adjacencies records) b := by
  apply load_adjacencies_foldl_sym
  intro a b hb
  simp [getAdj] at hb

end Loader

end SearchApp

/-! ## The timing wrapper -/

namespace SearchApp

section TimingLemmas

theorem measure_time_spec_result {ρ : Type} (f : World → ρ × World) (w : World) :
    (measure_time f w).1 = (measure_time_spec f w).1.1 := rfl

theorem measure_time_result {ρ : Type} (f : World → ρ × World) (w : World) :
    (measure_time f w).1 = (f (perf_counter w).2).1 := rfl

theorem measure_time_printed {ρ : Type} (f : World → ρ × World) (w : World) :
    (measure_time f w).2.printed =
      (f (perf_counter w).2).2.printed ++ [(measure_time_spec f w).1.2] := rfl

end TimingLemmas

end SearchApp

/-! ## The claims -/

namespace SearchApp

section WitnessHelpers

variable {α : Type} [DecidableEq α]

theorem isKeyB_true_iff {g : List (α × List α)} {x : α} :
    isKeyB g x = true ↔ ∃ e ∈ g, e.1 = x := by
  simp [isKeyB]

theorem dls_no_adj {g : List (α × List α)} {s t : α} (hne : s ≠ t)
    (hadj : getAdj g s = []) : ∀ (d : Nat) (path : List α),
      dls g t d s path = none := by
  intro d path
  cases d with
  | zero => rfl
  | succ n => simp [dls, hne, hadj, dlsTry]

theorem no_path_empty {s t : α} (hne : s ≠ t) :
    ∀ p : List α, isPathB ([] : List (α × List α)) s t p = true → False := by
  intro p hp
  obtain ⟨tail, _, hct⟩ := isPathB_decomp hp
  cases tail with
  | nil =>
    obtain ⟨_, hl⟩ := hct
    simp at hl
    exact hne hl
  | cons nb r =>
    obtain ⟨hc, _⟩ := hct
    rw [chainB_cons_cons] at hc
    have := hc.1
    simp [getAdj] at this

end WitnessHelpers

/-- C1: for every finite graph and every pair of nodes `start`, `goal`
connected in the graph, `bfs` returns a path whose edge count is minimal
among all paths from `start` to `goal` in the graph. -/
theorem claim_C1 {α : Type} [DecidableEq α] (g : List (α × List α)) (s t : α)
    (q : List α) (hconn : isPathB g s t q = true) :
    ∃ p, bfs g s t = some p ∧ isPathB g s t p = true ∧
      ∀ q2, isPathB g s t q2 = true → p.length - 1 ≤ q2.length - 1 := by
  obtain ⟨p, hbfs, hpath, _, hmin⟩ := bfs_shortest hconn
  exact ⟨p, hbfs, hpath, fun q2 hq2 => Nat.sub_le_sub_right (hmin q2 hq2) 1⟩

theorem claim_C1_witness :
    isPathB [((0 : Nat), [1]), (1, [0])] 0 1 [0, 1] = true ∧
      ∃ p, bfs [((0 : Nat), [1]), (1, [0])] 0 1 = some p ∧
        isPathB [((0 : Nat), [1]), (1, [0])] 0 1 p = true ∧
        ∀ q2, isPathB [((0 : Nat), [1]), (1, [0])] 0 1 q2 = true →
          p.length - 1 ≤ q2.length - 1 :=
  ⟨by decide, claim_C1 [((0 : Nat), [1]), (1, [0])] 0 1 [0, 1] (by decide)⟩

/-- C2: for every graph `g` and node `n`, each of the five variants called
with `start = goal = n` returns the single-element path `[n]` (including
when `n` is absent from `g`; for the heuristic variants under the
precondition that `n` has coordinates). -/
theorem claim_C2 {α : Type} [LinearOrder α] (g : List (α × List α))
    (cities : List (α × ℚ × ℚ)) (n : α) (hcoord : dictGet cities n ≠ none) :
    bfs g n n = some [n] ∧ dfs g n n = some [n] ∧ iddfs g n n = some [n] ∧
      best_first_search g cities n n = .ok (some [n]) ∧
      a_star g cities n n = .ok (some [n]) :=
  ⟨bfs_self g n, dfs_self g n, iddfs_self g n 20 (by omega),
    best_first_self g cities n hcoord, a_star_self g cities n⟩

theorem claim_C2_witness :
    dictGet [((0 : Nat), ((0 : ℚ), (0 : ℚ)))] 0 ≠ none ∧
      (bfs ([] : List (Nat × List Nat)) 0 0 = some [0] ∧
        dfs ([] : List (Nat × List Nat)) 0 0 = some [0] ∧
        iddfs ([] : List (Nat × List Nat)) 0 0 = some [0] ∧
        best_first_search ([] : List (Nat × List Nat))
          [((0 : Nat), ((0 : ℚ), (0 : ℚ)))] 0 0 = .ok (some [0]) ∧
        a_star ([] : List (Nat × List Nat))
          [((0 : Nat), ((0 : ℚ), (0 : ℚ)))] 0 0 = .ok (some [0])) :=
  ⟨by decide, claim_C2 [] [((0 : Nat), ((0 : ℚ), (0 : ℚ)))] 0 (by decide)⟩

/-- C3: whenever any of the five variants returns a path rather than
`None`, that path starts at `start`, ends at `goal`, every consecutive
pair is a neighbor relation in the graph, and no node occurs twice. -/
theorem claim_C3 {α : Type} [LinearOrder α] (g : List (α × List α))
    (cities : List (α × ℚ × ℚ)) (s t : α) (maxd : Nat) :
    (∀ p, bfs g s t = some p → isPathB g s t p = true ∧ p.Nodup) ∧
      (∀ p, dfs g s t = some p → isPathB g s t p = true ∧ p.Nodup) ∧
      (∀ p, iddfs g s t maxd = some p → isPathB g s t p = true ∧ p.Nodup) ∧
      (∀ p, best_first_search g cities s t = .ok (some p) →
        isPathB g s t p = true ∧ p.Nodup) ∧
      (∀ p, a_star g cities s t = .ok (some p) →
        isPathB g s t p = true ∧ p.Nodup) :=
  ⟨fun _ h => bfs_sound h, fun _ h => dfs_sound h,
    fun _ h => ⟨(iddfs_sound h).1, (iddfs_sound h).2.1⟩,
    fun _ h => best_sound h, fun _ h => astar_sound h⟩

theorem claim_C3_witness :
    isPathB [((0 : Nat), [1]), (1, [0])] 0 1 [0, 1] = true ∧
      ([0, 1] : List Nat).Nodup :=
  (claim_C3 [((0 : Nat), [1]), (1, [0])] [] 0 1 20).1 [0, 1] (by decide)

/-- C4 as stated is false: with `start = goal = n` absent from the graph,
`bfs` returns `[n]`, not `None`; with the goal absent as a key but present
in a neighbor list, `bfs` returns a path to it; and with an endpoint absent
but a reachable neighbor lacking coordinates, `best_first_search` raises
(returns the missing-key error) instead of returning `None` even though
both endpoints have coordinates. -/
theorem claim_C4_counterexample :
    bfs ([] : List (Nat × List Nat)) 0 0 = some [0] ∧
      bfs [((0 : Nat), [1])] 0 1 = some [0, 1] ∧
      best_first_search [((0 : Nat), [1]), (1, [0])]
        [((0 : Nat), ((0 : ℚ), (0 : ℚ))), (2, ((9 : ℚ), (9 : ℚ)))] 0 2 =
        .error 1 :=
  ⟨rfl, rfl, rfl⟩

/-- C4 (amended): for every graph whose adjacency lists mention only nodes
that are themselves keys (as `load_adjacencies` guarantees) and endpoints
with `start ≠ goal` such that `start` or `goal` has no adjacency entry,
`bfs`, `dfs` and `iddfs` (at every depth bound) return `None`, and
`best_first_search` and `a_star` return `None` without an error provided
every key of the graph and both endpoints have coordinates. -/
theorem claim_C4_amended {α : Type} [LinearOrder α] (g : List (α × List α))
    (cities : List (α × ℚ × ℚ)) (s t : α) (hclosed : closedB g = true)
    (hne : s ≠ t) (habsent : isKeyB g s = false ∨ isKeyB g t = false)
    (hkeys : ∀ e ∈ g, dictGet cities e.1 ≠ none)
    (hscoord : dictGet cities s ≠ none) (htcoord : dictGet cities t ≠ none) :
    bfs g s t = none ∧ dfs g s t = none ∧
      (∀ maxd, iddfs g s t maxd = none) ∧
      best_first_search g cities s t = .ok none ∧
      a_star g cities s t = .ok none := by
  have hkey_coord : ∀ x, isKeyB g x = true → dictGet cities x ≠ none := by
    intro x hx
    obtain ⟨e, he, hex⟩ := isKeyB_true_iff.mp hx
    rw [← hex]
    exact hkeys e he
  rcases habsent with hs | ht
  · have hadj : getAdj g s = [] := getAdj_of_not_key hs
    refine ⟨bfs_eq_of_aux (bfsAux_start_no_adj hne hadj (degSum g)),
      dfs_eq_of_aux (dfsAux_start_no_adj hne hadj (degSum g)), ?_, ?_, ?_⟩
    · intro maxd
      unfold iddfs
      exact iddfsGo_none (fun d => dls_no_adj hne hadj d [s]) _
    · obtain ⟨v, hv⟩ := heuristicVal_ok hscoord htcoord
      exact best_eq_of_aux hv (bestAux_start_no_adj hne hadj (degSum g) v)
    · exact astar_eq_of_aux (astarAux_start_no_adj hne hadj (degSum g))
  · have hedge : ∀ x c, x ∈ getAdj g c → x ≠ t := by
      intro x c hx hxt
      rw [hxt] at hx
      rw [mem_getAdj_closed hclosed hx] at ht
      cases ht
    have hnbc : ∀ c x, x ∈ getAdj g c → dictGet cities x ≠ none :=
      fun c x hx => hkey_coord x (mem_getAdj_closed hclosed hx)
    refine ⟨?_, ?_, ?_, ?_, ?_⟩
    · obtain ⟨r, hr⟩ := bfs_aux_exists g s t
      have := bfsAux_unreachable hedge (degSum g + 2) hr
        (by intro e he; simp at he; rw [he]; exact hne)
      rw [this] at hr
      exact bfs_eq_of_aux hr
    · obtain ⟨r, hr⟩ := dfs_aux_exists g s t
      have := dfsAux_unreachable hedge (degSum g + 2) hr
        (by intro e he; simp at he; rw [he]; exact hne)
      rw [this] at hr
      exact dfs_eq_of_aux hr
    · intro maxd
      unfold iddfs
      exact iddfsGo_none (fun d => dls_unreachable hedge d hne) _
    · obtain ⟨v, hv⟩ := heuristicVal_ok hscoord htcoord
      obtain ⟨r, hr⟩ := best_aux_exists g cities t (v, s, [s])
      have := bestAux_unreachable hedge hnbc htcoord (degSum g + 2) hr
        (by intro e he; simp at he; rw [he]; exact hne)
      rw [this] at hr
      exact best_eq_of_aux hv hr
    · obtain ⟨r, hr⟩ := astar_aux_exists g cities t (0, s, [s], 0) [(s, 0)]
      have := astarAux_unreachable hedge hnbc htcoord (degSum g + 2) hr
        (by intro e he; simp at he; rw [he]; exact hne)
      rw [this] at hr
      exact astar_eq_of_aux hr

theorem claim_C4_amended_witness :
    closedB [((0 : Nat), [1]), (1, [0])] = true ∧
      (bfs [((0 : Nat), [1]), (1, [0])] 2 0 = none ∧
        dfs [((0 : Nat), [1]), (1, [0])] 2 0 = none ∧
        (∀ maxd, iddfs [((0 : Nat), [1]), (1, [0])] 2 0 maxd = none) ∧
        best_first_search [((0 : Nat), [1]), (1, [0])]
          [((0 : Nat), ((0 : ℚ), (0 : ℚ))), (1, ((0 : ℚ), (1 : ℚ))),
            (2, ((5 : ℚ), (5 : ℚ)))] 2 0 = .ok none ∧
        a_star [((0 : Nat), [1]), (1, [0])]
          [((0 : Nat), ((0 : ℚ), (0 : ℚ))), (1, ((0 : ℚ), (1 : ℚ))),
            (2, ((5 : ℚ), (5 : ℚ)))] 2 0 = .ok none) :=
  ⟨by decide,
    claim_C4_amended [((0 : Nat), [1]), (1, [0])]
      [((0 : Nat), ((0 : ℚ), (0 : ℚ))), (1, ((0 : ℚ), (1 : ℚ))),
        (2, ((5 : ℚ), (5 : ℚ)))] 2 0 (by decide) (by decide)
      (Or.inl (by decide)) (by decide) (by decide) (by decide)⟩

/-- C5: if every path from `start` to `goal` has more than `D` edges, then
`iddfs` with `max_depth = D` returns `None`, even when a longer path
exists. -/
theorem claim_C5 {α : Type} [DecidableEq α] (g : List (α × List α)) (s t : α)
    (D : Nat) (hne : s ≠ t)
    (hlong : ∀ p, isPathB g s t p = true → D < p.length - 1) :
    iddfs g s t D = none := by
  cases h : iddfs g s t D with
  | none => rfl
  | some p =>
    obtain ⟨hpath, _, hlen⟩ := iddfs_sound h
    have := hlong p hpath
    omega

theorem claim_C5_witness :
    (0 : Nat) ≠ 1 ∧ iddfs ([] : List (Nat × List Nat)) 0 1 1 = none :=
  ⟨by decide,
    claim_C5 ([] : List (Nat × List Nat)) 0 1 1 (by decide)
      (fun p hp => ((no_path_empty (by decide) p hp).elim))⟩

/-- C6: the heuristic variants surface a missing coordinate as a
distinguishable error (the missing node itself), never as a returned path
or a silently assumed distance: every error outcome names a node absent
from the coordinate map, a missing `start` (or `goal`) coordinate makes
`best_first_search` return that error immediately, and a missing
coordinate of the first expanded neighbor makes `a_star` return that
error. -/
theorem claim_C6 {α : Type} [LinearOrder α] (g : List (α × List α))
    (cities : List (α × ℚ × ℚ)) (s t : α) :
    (∀ e, best_first_search g cities s t = .error e → dictGet cities e = none) ∧
      (∀ e, a_star g cities s t = .error e → dictGet cities e = none) ∧
      (dictGet cities s = none → best_first_search g cities s t = .error s) ∧
      (∀ cs, dictGet cities s = some cs → dictGet cities t = none →
        best_first_search g cities s t = .error t) ∧
      (∀ nb restAdj, s ≠ t → getAdj g s = nb :: restAdj →
        dictGet cities nb = none → a_star g cities s t = .error nb) :=
  ⟨fun _ h => best_first_error h, fun _ h => a_star_error h,
    fun h => best_first_missing_start h,
    fun _ hs h => best_first_missing_goal hs h,
    fun _ _ h1 hadj hnb => a_star_first_neighbor_missing h1 hadj hnb⟩

theorem claim_C6_witness :
    a_star [((0 : Nat), [1])] ([] : List (Nat × ℚ × ℚ)) 0 1 = .error 1 ∧
      dictGet ([] : List (Nat × ℚ × ℚ)) 1 = none :=
  ⟨(claim_C6 [((0 : Nat), [1])] ([] : List (Nat × ℚ × ℚ)) 0 1).2.2.2.2
      1 [] (by decide) rfl rfl, rfl⟩

/-- C7 as stated is false: `measure_time` does not return the pair of the
result and the elapsed duration — its return value is the bare result and
does not determine the elapsed time (two runs with different elapsed
times return the same value), while the spec's pair-returning harness
distinguishes them; the elapsed time is only printed. -/
theorem claim_C7_counterexample :
    (measure_time (fun w => ((none : Option (List Nat)), w))
        ⟨[0, 1], []⟩).1 =
      (measure_time (fun w => ((none : Option (List Nat)), w))
        ⟨[0, 2], []⟩).1 ∧
      (measure_time_spec (fun w => ((none : Option (List Nat)), w))
        ⟨[0, 1], []⟩).1.2 ≠
        (measure_time_spec (fun w => ((none : Option (List Nat)), w))
          ⟨[0, 2], []⟩).1.2 ∧
      (measure_time (fun w => ((none : Option (List Nat)), w))
        ⟨[0, 1], []⟩).2.printed = [1] :=
  ⟨rfl, by norm_num [measure_time_spec, perf_counter],
    by norm_num [measure_time, perf_counter, printLine]⟩

/-- C7 (amended): `measure_time` returns `f`'s result unaltered, computed
by the single invocation of `f` between the two timestamps, and prints
(rather than returns) the elapsed duration — exactly the duration
component of the pair the spec's harness would return. -/
theorem claim_C7_amended {ρ : Type} (f : World → ρ × World) (w : World) :
    (measure_time f w).1 = (f (perf_counter w).2).1 ∧
      (measure_time f w).1 = (measure_time_spec f w).1.1 ∧
      (measure_time f w).2.printed =
        (f (perf_counter w).2).2.printed ++ [(measure_time_spec f w).1.2] :=
  ⟨rfl, rfl, rfl⟩

/-- C8: every variant terminates on every finite graph: the four
frontier-driven loops reach a definite outcome within the explicit fuel
`degSum g + 2` (one step per frontier pop, bounded by the initial frontier
plus the total adjacency size), and `iddfs` only ever produces paths of at
most `max_depth` nodes, its exploration being depth-bounded. -/
theorem claim_C8 {α : Type} [LinearOrder α] (g : List (α × List α))
    (cities : List (α × ℚ × ℚ)) (s t : α) (d : Nat) (h0 : ℚ) :
    (bfsAux g t (degSum g + 2) [(s, [s])] []).isSome = true ∧
      (dfsAux g t (degSum g + 2) [(s, [s])] []).isSome = true ∧
      (bestAux g cities t (degSum g + 2) [(h0, s, [s])] []).isSome = true ∧
      (astarAux g cities t (degSum g + 2) [(0, s, [s], 0)]
        [(s, 0)] []).isSome = true ∧
      (∀ p, iddfs g s t d = some p → p.length ≤ d) :=
  ⟨bfsAux_top_isSome g s t, dfsAux_top_isSome g s t,
    bestAux_top_isSome g cities t (h0, s, [s]),
    astarAux_top_isSome g cities t (0, s, [s], 0) [(s, 0)],
    fun p h => Nat.le_of_lt (iddfs_sound h).2.2⟩

theorem claim_C8_witness :
    iddfs [((0 : Nat), [1]), (1, [0])] 0 1 20 = some [0, 1] ∧
      ([0, 1] : List Nat).length ≤ 20 :=
  ⟨rfl, (claim_C8 [((0 : Nat), [1]), (1, [0])] [] 0 1 20 0).2.2.2.2
    [0, 1] rfl⟩

/-- C9: the graph built from well-formed two-token edge records (inserting
both directions per edge, as `load_adjacencies` does) is symmetric — if
`b` appears in `a`'s neighbor list then `a` appears in `b`'s — and
neighbor lists may contain duplicates when an edge is declared twice. -/
theorem claim_C9 {α : Type} [DecidableEq α] (records : List (α × α)) :
    (∀ a b : α, b ∈ getAdj (load_adjacencies records) a →
      a ∈ getAdj (load_adjacencies records) b) ∧
      getAdj (load_adjacencies [((0 : Nat), (1 : Nat)), (0, 1)]) 0 = [1, 1] :=
  ⟨load_adjacencies_sym records, rfl⟩

/-- C10: the depth-0 cutoff of `dls` precedes its goal check, the outer
loop of `iddfs` only runs depths `0 .. max_depth - 1`, and a run from
`start` at limit `d` only produces paths of at most `d` nodes (at most
`d - 1` edges); consequently, when `start ≠ goal` and every connecting
path has more than `max_depth - 2` edges, `iddfs` returns `None` even when
a path exists within the nominal depth limit. -/
theorem claim_C10 {α : Type} [DecidableEq α] (g : List (α × List α))
    (s t : α) (maxd : Nat) :
    (∀ (node : α) (path : List α), dls g t 0 node path = none) ∧
      (∀ d p, dls g t d s [s] = some p → p.length ≤ d) ∧
      (s ≠ t → (∀ p, isPathB g s t p = true → maxd - 2 < p.length - 1) →
        iddfs g s t maxd = none) := by
  refine ⟨fun _ _ => rfl, ?_, ?_⟩
  · intro d p h
    obtain ⟨⟨ext, hpe, hlen⟩, _, _, _, _⟩ := dls_sound d h (by simp) (by simp)
      (by simp [chainB])
    rw [hpe]
    simp only [List.length_append, List.length_cons, List.length_nil]
    omega
  · intro hne hlong
    cases h : iddfs g s t maxd with
    | none => rfl
    | some p =>
      obtain ⟨hpath, _, hlen⟩ := iddfs_sound h
      have h1 := hlong p hpath
      have h2 : p ≠ [] := by
        intro h0
        rw [h0] at hpath
        simp [isPathB] at hpath
      have h3 : 1 ≤ p.length := by
        cases p with
        | nil => exact absurd rfl h2
        | cons a q => simp
      omega

theorem line3_no_short_path :
    ∀ p : List Nat,
      isPathB [((0 : Nat), [1]), (1, [0, 2]), (2, [1])] 0 2 p = true →
      3 - 2 < p.length - 1 := by
  intro p hp
  obtain ⟨tail, hpe, hct⟩ := isPathB_decomp hp
  subst hpe
  cases tail with
  | nil =>
    obtain ⟨_, hl⟩ := hct
    simp at hl
  | cons nb r =>
    cases r with
    | nil =>
      obtain ⟨hc, hl⟩ := hct
      rw [chainB_cons_cons] at hc
      have h2 : nb = 2 := by simpa using hl
      have h1 := hc.1
      rw [h2] at h1
      simp [getAdj] at h1
    | cons c r2 =>
      simp only [List.length_cons]
      omega

theorem claim_C10_witness :
    isPathB [((0 : Nat), [1]), (1, [0, 2]), (2, [1])] 0 2 [0, 1, 2] = true ∧
      iddfs [((0 : Nat), [1]), (1, [0, 2]), (2, [1])] 0 2 3 = none :=
  ⟨by decide,
    (claim_C10 [((0 : Nat), [1]), (1, [0, 2]), (2, [1])] 0 2 3).2.2
      (by decide) line3_no_short_path⟩

end SearchApp
